import Mathlib

/-!
Verification of the task-pipeline core (src/pipeline/src/task_pipeline).

The Python source is shallowly embedded: Python heap objects become Lean
values, in-place mutation becomes explicit value passing, `dict[str, Any]`
becomes an insertion-ordered association list, floats become exact
rationals, and a raising call becomes an `Except` result that carries the
state of the mutated context object at raise time.  The thread pool of the
parallel executor is linearized: branch outcomes are collected in
submission order (the source collects them in completion order, which is
arbitrary); every property proved below is insensitive to that order.
The real-time group deadline (`ParallelConfig.timeout`) and the worker
bound (`max_workers`) affect only scheduling and are not modelled.
-/

namespace TaskPipeline

/-- Python values that can appear in `ctx.results`.  Python's `bool` is a
subtype of `int`, but the merger explicitly excludes it from the numeric
rule with `not isinstance(v, bool)`, so it is a separate constructor here. -/
inductive PyVal where
  | vInt (n : ℤ)
  | vFloat (q : ℚ)
  | vBool (b : Bool)
  | vStr (s : String)
  | vList (xs : List PyVal)
  | vDict (d : List (String × PyVal))
  | vNone

/-- Python exceptions.  The executors treat exceptions opaquely (store,
re-raise); a single constructor carrying the message suffices. -/
inductive PyErr where
  | runtimeError (msg : String)
deriving DecidableEq, Repr

/-- Lookup in an insertion-ordered association list (`dict.get`). -/
def dGet {α : Type} : List (String × α) → String → Option α
  | [], _ => none
  | (k', v') :: rest, k => if k' = k then some v' else dGet rest k

/-- Write into an insertion-ordered association list (`d[k] = v`): replace
the value in place if the key exists, else append. -/
def dSet {α : Type} : List (String × α) → String → α → List (String × α)
  | [], k, v => [(k, v)]
  | (k', v') :: rest, k, v =>
      if k' = k then (k, v) :: rest else (k', v') :: dSet rest k v

/-- Shallow `dict.update`: write every binding of `d2` into `d1`. -/
def dUpdate {α : Type} (d1 d2 : List (String × α)) : List (String × α) :=
  d2.foldl (fun acc kv => dSet acc kv.1 kv.2) d1

/-- Sum of the values of a rational-valued dict. -/
def sumValues (d : List (String × ℚ)) : ℚ :=
  (d.map Prod.snd).sum

/-- `PipelineContext` from core/types.py.  `app_config` and
`logger_instance` are opaque to the core and never inspected, so they are
omitted; `_progress_tracker` is identity-shared across every context copy
(`__deepcopy__` re-attaches it), so it lives in the run state rather than
in the context value.  Deep-copying a context is therefore the identity on
this value type. -/
structure PipelineContext where
  results : List (String × PyVal)
  errors : List PyErr
  currentStepId : Option String

/-- Outcome of a user step's `run(ctx)`.  A Python step mutates the passed
heap object; when it raises, the caller still holds that (mutated) object.
`exn e ctx` therefore carries the state of the input context object at the
moment the exception escapes. -/
inductive StepOutcome where
  | ok (ctx : PipelineContext)
  | exn (e : PyErr) (ctx : PipelineContext)

/-- `PipelineStep` from core/types.py.  `run` is the user body; `reports`
is the list of percentages the body passes to
`ctx.update_step_progress` during that run (applied to the shared tracker
at the step id the executor installed).  `timeout`/`retries` are declared
but unenforced in the source and are omitted. -/
structure PipelineStep where
  step_id : String
  description : String
  critical : Bool
  run : PipelineContext → StepOutcome
  reports : PipelineContext → List ℚ

/-- `TaskStep = PipelineStep | list[PipelineStep]`.  A plan entry is a
serial step or a parallel group; the typed embedding cannot express nested
groups, which the source also does not support. -/
inductive TaskStep where
  | single (s : PipelineStep)
  | group (ss : List PipelineStep)

/-- The step ids contributed by one plan entry. -/
def TaskStep.ids : TaskStep → List String
  | .single s => [s.step_id]
  | .group ss => ss.map PipelineStep.step_id

/-- All step ids of a plan, in plan order. -/
def planIds (steps : List TaskStep) : List String :=
  (steps.map TaskStep.ids).flatten

inductive LogicOperator where
  | AND
  | OR
deriving DecidableEq, Repr

structure ParallelConfig where
  operator : LogicOperator := .AND
  max_workers : Option ℕ := none
  timeout : Option ℚ := none

structure PipelineConfig where
  fail_fast : Bool := true
  parallel_config : ParallelConfig := {}

/-- `ProgressTracker` state: the weight dict computed at construction and
the per-step internal progress dict.  The single mutex of the source
serializes access; the embedding is already sequential. -/
structure ProgressTracker where
  stepWeights : List (String × ℚ)
  stepProgress : List (String × ℚ)
deriving DecidableEq, Repr

/-- The inner loop of `_calculate_weights` for a parallel group: assign
`subWeight` to every sub-step's id. -/
def ProgressTracker.applyGroupWeights (subWeight : ℚ)
    (weights : List (String × ℚ)) (ss : List PipelineStep) :
    List (String × ℚ) :=
  ss.foldl (fun w sub => dSet w sub.step_id subWeight) weights

/-- One iteration of `_calculate_weights`: a serial entry's step gets the
whole entry share; a nonempty parallel group divides the share equally
among its sub-steps; an empty group contributes nothing. -/
def ProgressTracker.applyEntryWeight (stepWeight : ℚ)
    (weights : List (String × ℚ)) : TaskStep → List (String × ℚ)
  | .group ss =>
      if 0 < ss.length then
        ProgressTracker.applyGroupWeights (stepWeight / ss.length) weights ss
      else weights
  | .single s => dSet weights s.step_id stepWeight

/-- `ProgressTracker._calculate_weights`.  Each top-level entry gets
`100 / total`.  Writes go through dict assignment, so a duplicated step
id overwrites the earlier weight. -/
def ProgressTracker.calculateWeights (steps : List TaskStep) :
    List (String × ℚ) :=
  if steps.length = 0 then []
  else
    steps.foldl (ProgressTracker.applyEntryWeight (100 / steps.length)) []

/-- `ProgressTracker.__init__`. -/
def ProgressTracker.init (steps : List TaskStep) : ProgressTracker :=
  { stepWeights := ProgressTracker.calculateWeights steps,
    stepProgress := [] }

/-- `ProgressTracker.update_step_progress`: clamp to `[0, 100]` and
record. -/
def ProgressTracker.update_step_progress (t : ProgressTracker)
    (step_id : String) (progress : ℚ) : ProgressTracker :=
  { t with
      stepProgress := dSet t.stepProgress step_id (max 0 (min 100 progress)) }

/-- `ProgressTracker.get_overall_progress`: sum of
`weight * internal / 100` over the weight dict. -/
def ProgressTracker.get_overall_progress (t : ProgressTracker) : ℚ :=
  t.stepWeights.foldl
    (fun total kv =>
      total + kv.2 * (((dGet t.stepProgress kv.1).getD 0) / 100)) 0

/-- One row of `ProgressTracker.get_step_details`. -/
structure StepDetail where
  internal_progress : ℚ
  max_weight : ℚ
  contribution : ℚ
deriving DecidableEq, Repr

/-- `ProgressTracker.get_step_details`: one row per weight entry. -/
def ProgressTracker.get_step_details (t : ProgressTracker) :
    List (String × StepDetail) :=
  t.stepWeights.map (fun kv =>
    (kv.1,
      { internal_progress := (dGet t.stepProgress kv.1).getD 0,
        max_weight := kv.2,
        contribution := kv.2 * (((dGet t.stepProgress kv.1).getD 0) / 100) }))

/-- The tracker updates a step body performs through
`Context.update_step_progress`: each reported percent is written at the
current step id.  `if self._progress_tracker and self._current_step_id`
makes the call a no-op when the id is the empty string (falsy in Python);
the tracker itself is always attached during a run. -/
def applyReports (t : ProgressTracker) (step_id : String) (ps : List ℚ) :
    ProgressTracker :=
  if step_id = "" then t
  else ps.foldl (fun acc p => acc.update_step_progress step_id p) t

namespace TaskExecutor

/-- `TaskExecutor.execute`.  On success, return the context returned by
`run`.  On a raise, append the exception to the (possibly mutated) input
context object's `errors`; re-raise if the step is critical, else return
that same object. -/
def execute (step : PipelineStep) (context : PipelineContext) :
    Except (PyErr × PipelineContext) PipelineContext :=
  match step.run context with
  | .ok ctx => .ok ctx
  | .exn e ctxm =>
      let ctx2 := { ctxm with errors := ctxm.errors ++ [e] }
      if step.critical then .error (e, ctx2) else .ok ctx2

end TaskExecutor

/-- `isinstance(v, (int, float)) and not isinstance(v, bool)`. -/
def isPyNum : PyVal → Bool
  | .vInt _ => true
  | .vFloat _ => true
  | _ => false

/-- Numeric value of a Python number, for comparisons. -/
def toQ : PyVal → ℚ
  | .vInt n => (n : ℚ)
  | .vFloat q => q
  | _ => 0

/-- Python `+` on numbers: `int + int` stays `int`, any other numeric pair
gives a float.  The merger only applies it when the increment is numeric;
if the already-merged value under the key is non-numeric the source would
raise `TypeError` inside the merge — no claim below reaches that case. -/
def pyAdd : PyVal → PyVal → PyVal
  | .vInt a, .vInt b => .vInt (a + b)
  | a, b => .vFloat (toQ a + toQ b)

/-- Python `-` on numbers, same promotion rule as `pyAdd`. -/
def pySub : PyVal → PyVal → PyVal
  | .vInt a, .vInt b => .vInt (a - b)
  | a, b => .vFloat (toQ a - toQ b)

/-- The per-key body of `ParallelTaskExecutor._merge_contexts` (lines
125-188): one `(key, value)` pair of a step context's results merged into
the accumulated results.  The source checks list, then numeric, then dict,
then replaces; a dict value never passes the numeric test, so matching
the dict case as its own arm is equivalent.  Note the source computes
`original_value` with default `[]` when the new value is a list and
default `0` otherwise. -/
def mergeResultValue (originalResults mergedResults : List (String × PyVal))
    (key : String) (value : PyVal) : List (String × PyVal) :=
  match value with
  | .vList items =>
      let originalValue := (dGet originalResults key).getD (.vList [])
      match originalValue with
      | .vList originalItems =>
          let newItems := items.drop originalItems.length
          if newItems.isEmpty then
            if (dGet mergedResults key).isNone then
              dSet mergedResults key (.vList originalItems)
            else mergedResults
          else
            match dGet mergedResults key with
            | some (.vList ms) =>
                dSet mergedResults key (.vList (ms ++ newItems))
            | _ => dSet mergedResults key (.vList (originalItems ++ newItems))
      | _ => dSet mergedResults key (.vList items)
  | .vDict dv =>
      match dGet mergedResults key with
      | some (.vDict md) => dSet mergedResults key (.vDict (dUpdate md dv))
      | _ => dSet mergedResults key (.vDict dv)
  | v =>
      let originalValue := (dGet originalResults key).getD (.vInt 0)
      if isPyNum v && isPyNum originalValue then
        let stepIncrement := pySub v originalValue
        if 0 < toQ stepIncrement then
          dSet mergedResults key
            (pyAdd ((dGet mergedResults key).getD originalValue) stepIncrement)
        else mergedResults
      else dSet mergedResults key v

/-- One iteration of the outer loop of `_merge_contexts`: fold all result
keys of `step_context` into the accumulated context, then append the
error suffix this step contributed (the errors beyond the original
context's error count). -/
def mergeStepContext (originalContext : PipelineContext)
    (merged : PipelineContext) (stepContext : PipelineContext) :
    PipelineContext :=
  let mergedResults := stepContext.results.foldl
      (fun acc kv => mergeResultValue originalContext.results acc kv.1 kv.2)
      merged.results
  let newErrors := stepContext.errors.drop originalContext.errors.length
  { merged with
      results := mergedResults, errors := merged.errors ++ newErrors }

/-- `ParallelTaskExecutor._merge_contexts`: start from a copy of the
original context (so its `currentStepId` is preserved) and fold in every
step context in collection order. -/
def ParallelTaskExecutor.mergeContexts (originalContext : PipelineContext)
    (stepContexts : List PipelineContext) : PipelineContext :=
  stepContexts.foldl (mergeStepContext originalContext) originalContext

/-- Whether a collected future completed without raising. -/
def exceptIsOk {ε α : Type} : Except ε α → Bool
  | .ok _ => true
  | .error _ => false

/-- `ParallelTaskExecutor.execute`.  An empty group returns the context
untouched.  Each step runs on its own deep copy of the original context
with its own step id installed; a branch whose `TaskExecutor.execute`
re-raises (a critical failure) counts as a failed outcome and its context
— including the error just appended to it — is discarded.  The group
succeeds under AND iff every outcome is ok, under OR iff at least one is;
on failure a single `RuntimeError("Parallel group failed")` is raised,
otherwise the ok contexts are merged into the original.  Branch tracker
reports are linearized in submission order. -/
def ParallelTaskExecutor.execute (steps : List PipelineStep)
    (context : PipelineContext) (config : ParallelConfig)
    (progress_tracker : ProgressTracker) :
    Except PyErr (PipelineContext × ProgressTracker) :=
  match steps with
  | [] => .ok (context, progress_tracker)
  | _ =>
      let results := steps.map (fun s =>
        TaskExecutor.execute s { context with currentStepId := some s.step_id })
      let tracker1 := steps.foldl (fun t s =>
        applyReports t s.step_id
          (s.reports { context with currentStepId := some s.step_id }))
        progress_tracker
      let stepContexts := results.filterMap (fun r =>
        match r with
        | .ok c => some c
        | .error _ => none)
      let groupSucceeded :=
        match config.operator with
        | .AND => results.all exceptIsOk
        | .OR => results.any exceptIsOk
      if groupSucceeded then
        .ok (ParallelTaskExecutor.mergeContexts context stepContexts, tracker1)
      else .error (.runtimeError "Parallel group failed")

/-- One recorded invocation of the user's progress callback. -/
structure ObsCall where
  step_index : ℕ
  total_steps : ℕ
  step_name : String
  overall : ℚ
deriving DecidableEq, Repr

/-- State threaded through `Pipeline.run`: the current context object, the
shared tracker, the observer invocations so far, and — pure
instrumentation, written exactly once when a plan position begins
processing — the indices of the attempted positions. -/
structure RunState where
  ctx : PipelineContext
  tracker : ProgressTracker
  calls : List ObsCall
  attempted : List ℕ

/-- `f"parallel_group_{step_index}"`. -/
def groupName (idx : ℕ) : String := "parallel_group_" ++ toString idx

/-- The body of `Pipeline.run`'s loop for one plan position.  Serial: set
the current step id on the pipeline's context object, dispatch to
`TaskExecutor`, auto-complete the step to 100 and record the observer
call.  Parallel: the source first walks the group setting
`_current_step_id` to each sub-step's id in turn (net effect: the last
one), dispatches to `ParallelTaskExecutor`, then auto-completes every
sub-step and records one observer call with the synthesized group name.
On an exception the error is returned together with the state of the
pipeline's context object at that moment. -/
def Pipeline.processEntry (config : PipelineConfig) (total : ℕ) (idx : ℕ)
    (entry : TaskStep) (st : RunState) : Except (PyErr × RunState) RunState :=
  match entry with
  | .single s =>
      let ctx1 := { st.ctx with currentStepId := some s.step_id }
      let t1 := applyReports st.tracker s.step_id (s.reports ctx1)
      match TaskExecutor.execute s ctx1 with
      | .ok c =>
          let t2 := t1.update_step_progress s.step_id 100
          .ok { ctx := c, tracker := t2,
                calls := st.calls ++
                  [⟨idx, total, s.step_id, t2.get_overall_progress⟩],
                attempted := st.attempted ++ [idx] }
      | .error (e, cE) =>
          .error (e, { ctx := cE, tracker := t1, calls := st.calls,
                       attempted := st.attempted ++ [idx] })
  | .group ss =>
      let ctxP := ss.foldl
        (fun c s => { c with currentStepId := some s.step_id }) st.ctx
      match ParallelTaskExecutor.execute ss ctxP config.parallel_config
          st.tracker with
      | .ok (merged, t1) =>
          let t2 := ss.foldl
            (fun t s => t.update_step_progress s.step_id 100) t1
          .ok { ctx := merged, tracker := t2,
                calls := st.calls ++
                  [⟨idx, total, groupName idx, t2.get_overall_progress⟩],
                attempted := st.attempted ++ [idx] }
      | .error e =>
          .error (e, { ctx := ctxP, tracker := st.tracker,
                       calls := st.calls,
                       attempted := st.attempted ++ [idx] })

/-- Result of `Pipeline.run`: either a normal return or a propagated
exception, in both cases with the final observable state. -/
inductive RunResult where
  | ok (st : RunState)
  | raised (e : PyErr) (st : RunState)

/-- The plan-walking loop of `Pipeline.run`: on an exception at a
position, re-raise if `fail_fast`, else append the exception to the
context object's errors and continue with the next position. -/
def Pipeline.runAux (config : PipelineConfig) (total : ℕ) :
    ℕ → List TaskStep → RunState → RunResult
  | _, [], st => .ok st
  | idx, entry :: rest, st =>
      match Pipeline.processEntry config total idx entry st with
      | .ok st1 => Pipeline.runAux config total (idx + 1) rest st1
      | .error (e, st1) =>
          if config.fail_fast then .raised e st1
          else
            Pipeline.runAux config total (idx + 1) rest
              { st1 with
                  ctx := { st1.ctx with errors := st1.ctx.errors ++ [e] } }

/-- The `Pipeline` object: plan, configuration and the tracker built at
construction. -/
structure Pipeline where
  steps : List TaskStep
  config : PipelineConfig
  progress_tracker : ProgressTracker

/-- `Pipeline.__init__`: store plan and configuration and build the
tracker from the plan's shape.  No validation of any kind is performed on
the plan. -/
def mkPipeline (steps : List TaskStep) (config : PipelineConfig) : Pipeline :=
  { steps := steps, config := config,
    progress_tracker := ProgressTracker.init steps }

/-- `Pipeline.run`: inject the shared tracker and walk the plan from
position 0. -/
def Pipeline.run (p : Pipeline) (context : PipelineContext) : RunResult :=
  Pipeline.runAux p.config p.steps.length 0 p.steps
    { ctx := context, tracker := p.progress_tracker,
      calls := [], attempted := [] }

/-- `run` returned without raising. -/
def RunResult.isNormal : RunResult → Bool
  | .ok _ => true
  | .raised _ _ => false

/-- The final observable state, whether `run` returned or raised. -/
def RunResult.finalState : RunResult → RunState
  | .ok st => st
  | .raised _ st => st

/-- The context object after `run`. -/
def RunResult.finalCtx (r : RunResult) : PipelineContext := r.finalState.ctx

/-- The shared tracker after `run`. -/
def RunResult.finalTracker (r : RunResult) : ProgressTracker :=
  r.finalState.tracker

/-- `tracker.internal_progress[id]` with absent meaning 0. -/
def ProgressTracker.internalProgress (t : ProgressTracker)
    (step_id : String) : ℚ :=
  (dGet t.stepProgress step_id).getD 0

/-- The tests' `SimpleStep`: write a fixed value under a fixed key and
return the same context. -/
def SimpleStep (step_id key : String) (value : PyVal) : PipelineStep :=
  { step_id := step_id, description := "simple step", critical := true,
    run := fun ctx => .ok { ctx with results := dSet ctx.results key value },
    reports := fun _ => [] }

/-- The tests' `FailingStep`: raise `RuntimeError(msg)` without touching
the context. -/
def FailingStep (step_id msg : String) (critical : Bool) : PipelineStep :=
  { step_id := step_id, description := "failing step", critical := critical,
    run := fun ctx => .exn (.runtimeError msg) ctx,
    reports := fun _ => [] }

/-- A step that mutates `results` in place and then raises: the
half-written mutation is visible on the context object when the exception
escapes. -/
def MutateThenRaiseStep (step_id key : String) (value : PyVal)
    (msg : String) (critical : Bool) : PipelineStep :=
  { step_id := step_id, description := "mutates then raises",
    critical := critical,
    run := fun ctx =>
      .exn (.runtimeError msg)
        { ctx with results := dSet ctx.results key value },
    reports := fun _ => [] }

/-- Scenario S2's read-modify-write counter step: add `amount` to
`results["counter"]`. -/
def AddToCounterStep (step_id : String) (amount : ℤ) : PipelineStep :=
  { step_id := step_id, description := "adds to counter", critical := true,
    run := fun ctx =>
      .ok { ctx with
              results := dSet ctx.results "counter"
                (pyAdd ((dGet ctx.results "counter").getD (.vInt 0))
                  (.vInt amount)) },
    reports := fun _ => [] }

/-- A step that appends items to the list under `results[key]`. -/
def AppendItemsStep (step_id key : String) (items : List PyVal) :
    PipelineStep :=
  { step_id := step_id, description := "appends items", critical := true,
    run := fun ctx =>
      .ok { ctx with
              results := dSet ctx.results key
                (.vList
                  ((match dGet ctx.results key with
                    | some (.vList xs) => xs
                    | _ => []) ++ items)) },
    reports := fun _ => [] }

/-- A fresh context with no results and no errors. -/
def emptyCtx : PipelineContext :=
  { results := [], errors := [], currentStepId := none }

/-! ### Generic dictionary lemmas -/

theorem dGet_dSet_same {α : Type} (d : List (String × α)) (k : String)
    (v : α) : dGet (dSet d k v) k = some v := by
  induction d with
  | nil => simp [dGet, dSet]
  | cons p rest ih =>
      by_cases h : p.1 = k
      · simp [dGet, dSet, h]
      · simp [dGet, dSet, h, ih]

theorem dGet_dSet_other {α : Type} (d : List (String × α)) (k k' : String)
    (v : α) (h : k' ≠ k) : dGet (dSet d k v) k' = dGet d k' := by
  have hk : k ≠ k' := Ne.symm h
  induction d with
  | nil => simp [dGet, dSet, hk]
  | cons p rest ih =>
      by_cases hp : p.1 = k
      · subst hp
        simp [dGet, dSet, hk]
      · simp only [dSet, if_neg hp]
        by_cases hp' : p.1 = k'
        · simp [dGet, hp']
        · simp [dGet, hp', ih]

theorem dSet_fresh {α : Type} (d : List (String × α)) (k : String) (v : α)
    (h : k ∉ d.map Prod.fst) : dSet d k v = d ++ [(k, v)] := by
  induction d with
  | nil => simp [dSet]
  | cons p rest ih =>
      simp only [List.map_cons, List.mem_cons] at h
      push_neg at h
      have hp : p.1 ≠ k := Ne.symm h.1
      simp [dSet, hp, ih h.2]

theorem keys_dSet_mem {α : Type} (d : List (String × α)) (k : String)
    (v : α) (h : k ∈ d.map Prod.fst) :
    (dSet d k v).map Prod.fst = d.map Prod.fst := by
  induction d with
  | nil => simp at h
  | cons p rest ih =>
      by_cases hp : p.1 = k
      · simp [dSet, hp]
      · simp only [List.map_cons, List.mem_cons] at h
        rcases h with h | h
        · exact absurd h.symm hp
        · simp [dSet, hp, ih h]

theorem mem_keys_dSet {α : Type} (d : List (String × α)) (k k' : String)
    (v : α) : k' ∈ (dSet d k v).map Prod.fst ↔
      k' ∈ d.map Prod.fst ∨ k' = k := by
  induction d with
  | nil => simp [dSet]
  | cons p rest ih =>
      by_cases hp : p.1 = k
      · rw [show dSet (p :: rest) k v = (k, v) :: rest by simp [dSet, hp]]
        subst hp
        simp only [List.map_cons, List.mem_cons]
        tauto
      · rw [show dSet (p :: rest) k v = p :: dSet rest k v by
          simp [dSet, hp]]
        simp only [List.map_cons, List.mem_cons, ih]
        tauto

theorem nodup_keys_dSet {α : Type} (d : List (String × α)) (k : String)
    (v : α) (h : (d.map Prod.fst).Nodup) :
    ((dSet d k v).map Prod.fst).Nodup := by
  by_cases hk : k ∈ d.map Prod.fst
  · rw [keys_dSet_mem d k v hk]; exact h
  · rw [dSet_fresh d k v hk]
    simp only [List.map_append, List.map_cons, List.map_nil]
    rw [List.nodup_append]
    refine ⟨h, List.nodup_singleton k, ?_⟩
    intro a ha hb
    simp only [List.mem_singleton] at hb
    subst hb
    exact hk ha

theorem dGet_mem {α : Type} (d : List (String × α)) (k : String) (v : α)
    (h : dGet d k = some v) : (k, v) ∈ d := by
  induction d with
  | nil => simp [dGet] at h
  | cons p rest ih =>
      by_cases hp : p.1 = k
      · simp only [dGet, if_pos hp, Option.some.injEq] at h
        have hpv : p = (k, v) := by
          cases p
          simp only [Prod.mk.injEq]
          exact ⟨hp, h⟩
        rw [hpv]
        exact List.mem_cons_self _ _
      · simp only [dGet, if_neg hp] at h
        exact List.mem_cons_of_mem _ (ih h)

theorem dGet_eq_none {α : Type} (d : List (String × α)) (k : String)
    (h : k ∉ d.map Prod.fst) : dGet d k = none := by
  induction d with
  | nil => rfl
  | cons p rest ih =>
      simp only [List.map_cons, List.mem_cons] at h
      push_neg at h
      have hp : p.1 ≠ k := Ne.symm h.1
      simp [dGet, hp, ih h.2]

theorem dGet_of_mem_nodup {α : Type} (d : List (String × α)) (k : String)
    (v : α) (hmem : (k, v) ∈ d) (hnd : (d.map Prod.fst).Nodup) :
    dGet d k = some v := by
  induction d with
  | nil => simp at hmem
  | cons p rest ih =>
      simp only [List.map_cons, List.nodup_cons] at hnd
      rcases List.mem_cons.mp hmem with h | h
      · subst h
        simp [dGet]
      · have hne : p.1 ≠ k := by
          intro hh
          exact hnd.1 (hh ▸ List.mem_map_of_mem Prod.fst h)
        simp [dGet, hne, ih h hnd.2]

theorem dGet_append_left {α : Type} (d1 d2 : List (String × α))
    (k : String) (h : k ∈ d1.map Prod.fst) :
    dGet (d1 ++ d2) k = dGet d1 k := by
  induction d1 with
  | nil => simp at h
  | cons p rest ih =>
      by_cases hp : p.1 = k
      · simp [dGet, hp]
      · simp only [List.map_cons, List.mem_cons] at h
        rcases h with h | h
        · exact absurd h.symm hp
        · simp [dGet, hp, ih h]

theorem dGet_append_right {α : Type} (d1 d2 : List (String × α))
    (k : String) (h : k ∉ d1.map Prod.fst) :
    dGet (d1 ++ d2) k = dGet d2 k := by
  induction d1 with
  | nil => simp
  | cons p rest ih =>
      simp only [List.map_cons, List.mem_cons] at h
      push_neg at h
      have hp : p.1 ≠ k := Ne.symm h.1
      simp [dGet, hp, ih h.2]

/-! ### Shared concrete scenario material -/

/-- The `fail_fast=false` pipeline configuration. -/
def failSlowCfg : PipelineConfig := { fail_fast := false }

/-- A one-entry plan whose only step is critical and raises. -/
def singleCriticalFailPlan : List TaskStep :=
  [.single (FailingStep "f" "boom" true)]

/-! ### Claim C1 — parallel OR with a critical failing branch (S6) -/

/-- Scenario S6's plan: one parallel group with a critical raising step F
and a succeeding step G that writes `results["g"] = "done"`. -/
def s6plan : List TaskStep :=
  [.group [FailingStep "f" "boom" true, SimpleStep "g" "g" (.vStr "done")]]

/-- Scenario S6's configuration: parallel operator OR. -/
def s6cfg : PipelineConfig :=
  { fail_fast := true, parallel_config := { operator := .OR } }

/-- Claim C1 counterexample: in scenario S6 the run does return normally
with `results["g"] == "done"`, but the final error list is empty — the
claimed `len(errors) >= 1` is false.  F's captured error lives only on
F's private context copy, which the parallel executor discards because
F's future raised; the merge sees only G's context. -/
theorem C1_counterexample :
    ((mkPipeline s6plan s6cfg).run emptyCtx).isNormal = true ∧
    dGet ((mkPipeline s6plan s6cfg).run emptyCtx).finalCtx.results "g" =
      some (.vStr "done") ∧
    ¬ 1 ≤ ((mkPipeline s6plan s6cfg).run emptyCtx).finalCtx.errors.length := by
  refine ⟨rfl, rfl, ?_⟩
  have h : ((mkPipeline s6plan s6cfg).run emptyCtx).finalCtx.errors.length
      = 0 := rfl
  omega

/-- Claim C1 (amended): in scenario S6 `run` returns normally with final
`results["g"] == "done"` and an empty error list: the error captured on
the critical failing branch's context copy is discarded together with
that copy when the OR group succeeds, so no captured error from a failed
branch survives into the returned context. -/
theorem C1_or_group_discards_failed_branch_errors :
    ((mkPipeline s6plan s6cfg).run emptyCtx).isNormal = true ∧
    dGet ((mkPipeline s6plan s6cfg).run emptyCtx).finalCtx.results "g" =
      some (.vStr "done") ∧
    ((mkPipeline s6plan s6cfg).run emptyCtx).finalCtx.errors = [] :=
  ⟨rfl, rfl, rfl⟩

/-! ### Claim C3 — TaskExecutor's behavior on a raising step -/

/-- Claim C3 counterexample: a non-critical step that mutates
`results["x"]` in place and then raises.  `TaskExecutor.execute` returns
the same context object, which carries the half-written mutation plus the
appended error — not the original input context unchanged. -/
theorem C3_counterexample :
    TaskExecutor.execute (MutateThenRaiseStep "m" "x" (.vInt 1) "boom" false)
        emptyCtx =
      .ok { results := [("x", .vInt 1)],
            errors := [.runtimeError "boom"], currentStepId := none } ∧
    ({ results := [("x", .vInt 1)], errors := [.runtimeError "boom"],
       currentStepId := none } : PipelineContext) ≠ emptyCtx := by
  refine ⟨rfl, ?_⟩
  intro h
  have : ([("x", PyVal.vInt 1)] : List (String × PyVal)) = [] :=
    congrArg PipelineContext.results h
  simp at this

/-- Claim C3 (amended): if `step.run(ctx)` raises `e` leaving the context
object in state `ctxm`, then `TaskExecutor.execute` appends `e` to that
object's errors, re-raises exactly when the step is critical, and
otherwise returns that same object — so in-place mutations made before
the raise do carry through; only a successfully returned replacement
context is lost. -/
theorem C3_executor_raise_behavior (step : PipelineStep)
    (ctx ctxm : PipelineContext) (e : PyErr)
    (h : step.run ctx = .exn e ctxm) :
    TaskExecutor.execute step ctx =
      if step.critical then
        .error (e, { ctxm with errors := ctxm.errors ++ [e] })
      else .ok { ctxm with errors := ctxm.errors ++ [e] } := by
  unfold TaskExecutor.execute
  rw [h]

/-- Claim C3 witness: the amended theorem applied to the concrete
mutate-then-raise step. -/
theorem C3_witness :
    TaskExecutor.execute (MutateThenRaiseStep "m" "x" (.vInt 1) "boom" false)
        emptyCtx =
      .ok { results := [("x", .vInt 1)],
            errors := [.runtimeError "boom"], currentStepId := none } := by
  have h := C3_executor_raise_behavior
    (MutateThenRaiseStep "m" "x" (.vInt 1) "boom" false) emptyCtx
    { results := [("x", .vInt 1)], errors := [], currentStepId := none }
    (.runtimeError "boom") rfl
  simpa using h

/-! ### Claim C9 — empty plan -/

/-- Claim C9: on an empty plan, `run` returns the input context unchanged,
invokes the observer zero times, and attempts zero positions. -/
theorem C9_empty_plan_identity (config : PipelineConfig)
    (context : PipelineContext) :
    (mkPipeline [] config).run context =
      .ok { ctx := context, tracker := ProgressTracker.init [],
            calls := [], attempted := [] } := rfl

/-! ### Claim C2 counterexample -/

/-- Claim C2 counterexample: with `fail_fast=false` and the one-entry
plan whose critical step raises, the claim's formula predicts
`len(errors) = 1` (one failing position, no non-critical failures inside
successful positions), but the run ends with 2 errors: the executor
appends the exception to the context and the pipeline's position handler
appends the very same exception again. -/
theorem C2_counterexample :
    ((mkPipeline singleCriticalFailPlan failSlowCfg).run
        emptyCtx).isNormal = true ∧
    ((mkPipeline singleCriticalFailPlan failSlowCfg).run
        emptyCtx).finalCtx.errors.length = 2 ∧
    ¬ ((mkPipeline singleCriticalFailPlan failSlowCfg).run
        emptyCtx).finalCtx.errors.length = 1 := by
  refine ⟨rfl, rfl, ?_⟩
  have h : ((mkPipeline singleCriticalFailPlan failSlowCfg).run
      emptyCtx).finalCtx.errors.length = 2 := rfl
  omega

/-! ### Claim C4 counterexample -/

/-- Claim C4 counterexample: the weight sum is not 100 (within 1e-6) for
every plan.  The empty plan sums to 0; the plan holding one empty
parallel group sums to 0; a plan with a duplicated step id sums to 50
because the second dict write overwrites the first. -/
theorem C4_counterexample :
    sumValues (ProgressTracker.calculateWeights []) = 0 ∧
    sumValues (ProgressTracker.calculateWeights [.group []]) = 0 ∧
    sumValues (ProgressTracker.calculateWeights
      [.single (SimpleStep "a" "k1" .vNone),
       .single (SimpleStep "a" "k2" .vNone)]) = 50 ∧
    ¬ |sumValues (ProgressTracker.calculateWeights []) - 100| ≤
        1 / 1000000 := by
  refine ⟨rfl, rfl, ?_, ?_⟩
  · norm_num [ProgressTracker.calculateWeights,
      ProgressTracker.applyEntryWeight, SimpleStep, dSet, sumValues]
  · have h : sumValues (ProgressTracker.calculateWeights []) = 0 := rfl
    rw [h]
    norm_num

/-! ### Claim C5 counterexample -/

/-- Claim C5 counterexample: with `fail_fast=false`, a plan whose only
(critical, raising) step fails makes `run` return normally, yet that plan
step's internal progress is 0, not 100 — the position raised into the
pipeline handler, so it was never auto-completed. -/
theorem C5_counterexample :
    ((mkPipeline singleCriticalFailPlan failSlowCfg).run
        emptyCtx).isNormal = true ∧
    "f" ∈ planIds singleCriticalFailPlan ∧
    ((mkPipeline singleCriticalFailPlan failSlowCfg).run
        emptyCtx).finalTracker.internalProgress "f" = 0 := by
  refine ⟨rfl, ?_, rfl⟩
  simp [planIds, singleCriticalFailPlan, TaskStep.ids, FailingStep]

/-! ### Claim C8 counterexample -/

/-- A plan with a duplicated step id. -/
def dupIdPlan : List TaskStep :=
  [.single (SimpleStep "a" "k1" (.vInt 1)),
   .single (SimpleStep "a" "k2" (.vInt 2))]

/-- A plan with an empty step id. -/
def emptyIdPlan : List TaskStep := [.single (SimpleStep "" "k" (.vInt 1))]

/-- Claim C8 counterexample: constructing a pipeline over a plan with a
duplicated step id, or an empty step id, raises nothing — `run` is
callable and returns normally.  The duplicate silently collapses to a
single weight entry, so the weights sum to 50 instead of 100. -/
theorem C8_counterexample :
    ((mkPipeline dupIdPlan {}).run emptyCtx).isNormal = true ∧
    ((mkPipeline emptyIdPlan {}).run emptyCtx).isNormal = true ∧
    sumValues (mkPipeline dupIdPlan {}).progress_tracker.stepWeights
      = 50 := by
  refine ⟨rfl, rfl, ?_⟩
  norm_num [mkPipeline, ProgressTracker.init,
    ProgressTracker.calculateWeights, ProgressTracker.applyEntryWeight,
    dupIdPlan, SimpleStep, dSet, sumValues]

/-! ### Claim C7 — parallel numeric increments (S2) -/

/-- Scenario S2's plan: one parallel group whose three steps
read-modify-write `results["counter"]`, adding 10, 20 and 30. -/
def s2plan : List TaskStep :=
  [.group [AddToCounterStep "x" 10, AddToCounterStep "y" 20,
           AddToCounterStep "z" 30]]

/-- Scenario S2's input context: `results = {"counter": 0}`. -/
def s2ctx : PipelineContext :=
  { results := [("counter", .vInt 0)], errors := [], currentStepId := none }

/-- Claim C7: in scenario S2 the run returns normally with
`results["counter"] == 60`, and in general the numeric merge rule adds a
step's increment `new_v - orig_v` to the merged value exactly when the
increment is positive and ignores it otherwise. -/
theorem C7_parallel_numeric_increments :
    ((mkPipeline s2plan {}).run s2ctx).isNormal = true ∧
    dGet ((mkPipeline s2plan {}).run s2ctx).finalCtx.results "counter" =
      some (.vInt 60) ∧
    (∀ (origR mergedR : List (String × PyVal)) (k : String) (a b : ℤ),
      dGet origR k = some (.vInt a) →
      mergeResultValue origR mergedR k (.vInt b) =
        if 0 < b - a then
          dSet mergedR k
            (pyAdd ((dGet mergedR k).getD (.vInt a)) (.vInt (b - a)))
        else mergedR) := by
  refine ⟨rfl, rfl, ?_⟩
  intro origR mergedR k a b h
  have hq : (0 < toQ (pySub (.vInt b) (.vInt a))) ↔ 0 < b - a := by
    simp only [pySub, toQ]
    exact_mod_cast Iff.rfl
  simp only [mergeResultValue, h, Option.getD_some, isPyNum,
    Bool.and_self, if_true, pySub]
  by_cases hb : 0 < b - a
  · rw [if_pos (by simp only [toQ]; exact_mod_cast hb), if_pos hb]
  · rw [if_neg (by simp only [toQ]; exact_mod_cast hb), if_neg hb]

/-- Claim C7 witness: the general numeric rule instantiated at a concrete
merge — original value 0, already-merged value 30, new value 30 from a
step that added 30; the increment is added onto the merged value. -/
theorem C7_witness :
    mergeResultValue [("counter", .vInt 0)] [("counter", .vInt 30)]
        "counter" (.vInt 30) =
      [("counter", .vInt 60)] := by
  have h := C7_parallel_numeric_increments.2.2
    [("counter", .vInt 0)] [("counter", .vInt 30)] "counter" 0 30 rfl
  simpa using h

/-! ### Claim C6 — list merge with an absent original value -/

/-- A post-step context that wrote `results["items"] = [vInt 1]`. -/
def c6ctx1 : PipelineContext :=
  { results := [("items", .vList [.vInt 1])], errors := [],
    currentStepId := none }

/-- A post-step context that wrote `results["items"] = [vInt 2]`. -/
def c6ctx2 : PipelineContext :=
  { results := [("items", .vList [.vInt 2])], errors := [],
    currentStepId := none }

/-- Claim C6 counterexample: when the original context lacks the key, the
merger does not replace — `original_value` defaults to the empty list, so
each writer's whole list counts as its contribution and the
contributions are appended.  Merging two writers of `[1]` and `[2]` over
an absent key yields `[1, 2]`, not the last writer's `[2]`. -/
theorem C6_counterexample :
    dGet (ParallelTaskExecutor.mergeContexts emptyCtx
        [c6ctx1, c6ctx2]).results "items" =
      some (.vList [.vInt 1, .vInt 2]) ∧
    dGet (ParallelTaskExecutor.mergeContexts emptyCtx
        [c6ctx1, c6ctx2]).results "items" ≠
      some (.vList [.vInt 2]) := by
  constructor
  · rfl
  · rw [show dGet (ParallelTaskExecutor.mergeContexts emptyCtx
        [c6ctx1, c6ctx2]).results "items" =
        some (.vList [.vInt 1, .vInt 2]) from rfl]
    intro h
    simp only [Option.some.injEq, PyVal.vList.injEq] at h
    exact absurd (congrArg List.length h) (by simp)

/-! ### Merge-fold lemmas for the list rule -/

/-- `isinstance(v, list)`. -/
def isPyList : PyVal → Bool
  | .vList _ => true
  | _ => false

/-- The list a context stores under `k` (empty if absent or not a list). -/
def listAt (c : PipelineContext) (k : String) : List PyVal :=
  match dGet c.results k with
  | some (.vList l) => l
  | _ => []

/-- A single merged key either leaves the dict unchanged or writes that
key. -/
theorem mergeResultValue_shape (origR mr : List (String × PyVal))
    (key : String) (v : PyVal) :
    mergeResultValue origR mr key v = mr ∨
    ∃ x, mergeResultValue origR mr key v = dSet mr key x := by
  cases v <;> unfold mergeResultValue <;> dsimp only <;>
    (repeat' split) <;>
    first
      | exact Or.inl rfl
      | exact Or.inr ⟨_, rfl⟩

/-- Merging one key does not change the value stored under another key. -/
theorem dGet_mergeResultValue_other (origR mr : List (String × PyVal))
    (key : String) (v : PyVal) (k : String) (h : key ≠ k) :
    dGet (mergeResultValue origR mr key v) k = dGet mr k := by
  rcases mergeResultValue_shape origR mr key v with heq | ⟨x, heq⟩
  · rw [heq]
  · rw [heq, dGet_dSet_other _ _ _ _ (Ne.symm h)]

/-- Folding result entries none of which carries key `k` preserves the
value stored under `k`. -/
theorem fold_merge_entries_other (origR : List (String × PyVal))
    (k : String) :
    ∀ (entries mr : List (String × PyVal)),
    k ∉ entries.map Prod.fst →
    dGet (entries.foldl
        (fun m kv => mergeResultValue origR m kv.1 kv.2) mr) k =
      dGet mr k := by
  intro entries
  induction entries with
  | nil => intro mr _; rfl
  | cons p rest ih =>
      intro mr h
      simp only [List.map_cons, List.mem_cons] at h
      push_neg at h
      rw [List.foldl_cons, ih _ h.2,
        dGet_mergeResultValue_other _ _ _ _ _ (Ne.symm h.1)]

/-- The list-rule transition at key `k`: with the original value a list
`ol` (or absent, embedded as `ol = []` by the source's `.get(key, [])`
default), merging a written list `l` appends `l`'s items beyond
`ol.length` onto the accumulated value, initializing it from `ol` when
`k` is absent from the accumulator. -/
theorem mergeResultValue_list_step (origR mr : List (String × PyVal))
    (k : String) (ol l acc : List PyVal)
    (hov : (dGet origR k).getD (.vList []) = .vList ol)
    (hinv : dGet mr k = some (.vList (ol ++ acc)) ∨
      (acc = [] ∧ dGet mr k = none)) :
    dGet (mergeResultValue origR mr k (.vList l)) k =
      some (.vList (ol ++ (acc ++ l.drop ol.length))) := by
  unfold mergeResultValue
  rw [hov]
  by_cases hemp : (l.drop ol.length).isEmpty
  · have hdrop : l.drop ol.length = [] := List.isEmpty_iff.mp hemp
    rcases hinv with hm | ⟨hacc, hm⟩
    · simp only [hemp, if_true, hm, Option.isNone_some, Bool.false_eq_true,
        if_false, hdrop, List.append_nil]
      exact hm
    · simp only [hemp, if_true, hm, Option.isNone_none, if_true, hacc,
        hdrop, List.append_nil, List.nil_append]
      exact dGet_dSet_same _ _ _
  · rcases hinv with hm | ⟨hacc, hm⟩
    · simp only [hemp, Bool.false_eq_true, if_false, hm]
      rw [dGet_dSet_same]
      simp [List.append_assoc]
    · simp only [hemp, Bool.false_eq_true, if_false, hm, hacc,
        List.nil_append]
      rw [dGet_dSet_same]

/-- Folding all result entries of one writer, when the writer stores a
list under `k` (and its result keys are unique), extends the accumulated
list value under `k` by that writer's items beyond `ol.length`, starting
it from `ol` if `k` was absent so far. -/
theorem fold_merge_entries_list (origR : List (String × PyVal))
    (k : String) (ol : List PyVal)
    (hov : (dGet origR k).getD (.vList []) = .vList ol) :
    ∀ (entries mr : List (String × PyVal)) (acc l : List PyVal),
    (entries.map Prod.fst).Nodup →
    dGet entries k = some (.vList l) →
    (dGet mr k = some (.vList (ol ++ acc)) ∨
      (acc = [] ∧ dGet mr k = none)) →
    dGet (entries.foldl
        (fun m kv => mergeResultValue origR m kv.1 kv.2) mr) k =
      some (.vList (ol ++ (acc ++ l.drop ol.length))) := by
  intro entries
  induction entries with
  | nil => intro mr acc l _ hk; simp [dGet] at hk
  | cons p rest ih =>
      intro mr acc l hnd hk hinv
      simp only [List.map_cons, List.nodup_cons] at hnd
      by_cases hp : p.1 = k
      · have hv : p.2 = .vList l := by
          simp only [dGet, if_pos hp, Option.some.injEq] at hk
          exact hk
        have hknotin : k ∉ rest.map Prod.fst := hp ▸ hnd.1
        rw [List.foldl_cons, fold_merge_entries_other _ _ _ _ hknotin,
          hp, hv, mergeResultValue_list_step origR mr k ol l acc hov hinv]
      · simp only [dGet, if_neg hp] at hk
        rw [List.foldl_cons]
        exact ih _ acc l hnd.2 hk
          (by rwa [dGet_mergeResultValue_other _ _ _ _ _ hp])

/-- Folding whole writer contexts, each storing a list under `k`, keeps
appending each writer's contribution (its items beyond `ol.length`). -/
theorem fold_merge_ctxs_list (original : PipelineContext) (k : String)
    (ol : List PyVal)
    (hov : (dGet original.results k).getD (.vList []) = .vList ol) :
    ∀ (ctxs : List PipelineContext) (merged : PipelineContext)
      (acc : List PyVal),
    (∀ c ∈ ctxs, (c.results.map Prod.fst).Nodup) →
    (∀ c ∈ ctxs, ∃ l, dGet c.results k = some (.vList l)) →
    dGet merged.results k = some (.vList (ol ++ acc)) →
    dGet ((ctxs.foldl (mergeStepContext original) merged)).results k =
      some (.vList (ol ++ acc ++
        (ctxs.map (fun c => (listAt c k).drop ol.length)).flatten)) := by
  intro ctxs
  induction ctxs with
  | nil => intro merged acc _ _ hm; simpa using hm
  | cons c rest ih =>
      intro merged acc hnd hl hm
      obtain ⟨l, hcl⟩ := hl c (List.mem_cons_self c rest)
      have h1 : dGet (mergeStepContext original merged c).results k =
          some (.vList (ol ++ (acc ++ l.drop ol.length))) :=
        fold_merge_entries_list original.results k ol hov c.results
          merged.results acc l (hnd c (List.mem_cons_self c rest)) hcl
          (Or.inl hm)
      have hrest := ih (mergeStepContext original merged c)
        (acc ++ l.drop ol.length)
        (fun d hd => hnd d (List.mem_cons_of_mem c hd))
        (fun d hd => hl d (List.mem_cons_of_mem c hd)) h1
      rw [List.foldl_cons, hrest]
      have hlat : listAt c k = l := by simp [listAt, hcl]
      simp [hlat, List.append_assoc]

/-- The list-rule transition when the original value under `k` is present
but not a list: the written list simply replaces whatever the accumulator
holds. -/
theorem mergeResultValue_list_replace (origR mr : List (String × PyVal))
    (k : String) (w : PyVal) (l : List PyVal)
    (h : dGet origR k = some w) (hw : isPyList w = false) :
    dGet (mergeResultValue origR mr k (.vList l)) k =
      some (.vList l) := by
  have hov : (dGet origR k).getD (.vList []) = w := by rw [h]; rfl
  unfold mergeResultValue
  dsimp only
  rw [hov]
  cases w with
  | vList l' => simp [isPyList] at hw
  | vInt n => exact dGet_dSet_same _ _ _
  | vFloat q => exact dGet_dSet_same _ _ _
  | vBool b => exact dGet_dSet_same _ _ _
  | vStr s => exact dGet_dSet_same _ _ _
  | vDict d => exact dGet_dSet_same _ _ _
  | vNone => exact dGet_dSet_same _ _ _

/-- Folding all result entries of one writer that stores a list under
`k`, when the original value under `k` is present and not a list: the
writer's list replaces the accumulated value. -/
theorem fold_merge_entries_replace (origR : List (String × PyVal))
    (k : String) (w : PyVal) (hk : dGet origR k = some w)
    (hw : isPyList w = false) :
    ∀ (entries mr : List (String × PyVal)) (l : List PyVal),
    (entries.map Prod.fst).Nodup →
    dGet entries k = some (.vList l) →
    dGet (entries.foldl
        (fun m kv => mergeResultValue origR m kv.1 kv.2) mr) k =
      some (.vList l) := by
  intro entries
  induction entries with
  | nil => intro mr l _ hkk; simp [dGet] at hkk
  | cons p rest ih =>
      intro mr l hnd hkk
      simp only [List.map_cons, List.nodup_cons] at hnd
      by_cases hp : p.1 = k
      · have hv : p.2 = .vList l := by
          simp only [dGet, if_pos hp, Option.some.injEq] at hkk
          exact hkk
        have hknotin : k ∉ rest.map Prod.fst := hp ▸ hnd.1
        rw [List.foldl_cons, fold_merge_entries_other _ _ _ _ hknotin,
          hp, hv, mergeResultValue_list_replace origR mr k w l hk hw]
      · simp only [dGet, if_neg hp] at hkk
        rw [List.foldl_cons]
        exact ih _ l hnd.2 hkk

/-- Folding whole writer contexts when the original value under `k` is
present and not a list: the last writer's list wins. -/
theorem fold_merge_ctxs_replace (original : PipelineContext) (k : String)
    (w : PyVal) (hk : dGet original.results k = some w)
    (hw : isPyList w = false) :
    ∀ (ctxs : List PipelineContext) (merged : PipelineContext),
    ctxs ≠ [] →
    (∀ c ∈ ctxs, (c.results.map Prod.fst).Nodup) →
    (∀ c ∈ ctxs, ∃ l, dGet c.results k = some (.vList l)) →
    dGet ((ctxs.foldl (mergeStepContext original) merged)).results k =
      ctxs.getLast?.map (fun c => PyVal.vList (listAt c k)) := by
  intro ctxs
  induction ctxs with
  | nil => intro _ h; exact absurd rfl h
  | cons c rest ih =>
      intro merged _ hnd hl
      obtain ⟨l, hcl⟩ := hl c (List.mem_cons_self c rest)
      have h1 : dGet (mergeStepContext original merged c).results k =
          some (.vList l) :=
        fold_merge_entries_replace original.results k w hk hw c.results
          merged.results l (hnd c (List.mem_cons_self c rest)) hcl
      cases rest with
      | nil =>
          rw [List.foldl_cons, List.foldl_nil, h1]
          simp [listAt, hcl]
      | cons d rest2 =>
          rw [List.foldl_cons]
          rw [ih (mergeStepContext original merged c) (by simp)
            (fun x hx => hnd x (List.mem_cons_of_mem c hx))
            (fun x hx => hl x (List.mem_cons_of_mem c hx))]
          rfl

/-- Claim C6 (amended): in the context merger, for a result key whose new
value is an ordered sequence: when the original value is a sequence `ol`
— or absent, in which case the source's `.get(key, [])` default makes it
behave exactly like the empty sequence — the items beyond `ol.length` are
each writer's contribution and are appended in merge order, the
accumulator being initialized from `ol` by the first writer; only when
the original value is present and not a sequence is the accumulator
replaced by each writer's sequence (so the last writer wins). -/
theorem C6_list_merge_rule (original : PipelineContext)
    (ctxs : List PipelineContext) (k : String)
    (hnd : ∀ c ∈ ctxs, (c.results.map Prod.fst).Nodup)
    (hl : ∀ c ∈ ctxs, ∃ l, dGet c.results k = some (.vList l))
    (hne : ctxs ≠ []) :
    (∀ ol, (dGet original.results k).getD (.vList []) = .vList ol →
      dGet (ParallelTaskExecutor.mergeContexts original ctxs).results k =
        some (.vList (ol ++
          (ctxs.map (fun c => (listAt c k).drop ol.length)).flatten))) ∧
    (∀ w, dGet original.results k = some w → isPyList w = false →
      dGet (ParallelTaskExecutor.mergeContexts original ctxs).results k =
        ctxs.getLast?.map (fun c => PyVal.vList (listAt c k))) := by
  constructor
  · intro ol hov
    show dGet ((ctxs.foldl (mergeStepContext original) original)).results k
      = _
    cases hget : dGet original.results k with
    | some v =>
        have hv : v = .vList ol := by rw [hget] at hov; exact hov
        have hm : dGet original.results k = some (.vList (ol ++ [])) := by
          rw [hget, hv, List.append_nil]
        have := fold_merge_ctxs_list original k ol hov ctxs original []
          hnd hl hm
        simpa using this
    | none =>
        have hol : ol = [] := by
          rw [hget] at hov
          simpa [Option.getD] using hov.symm
        cases ctxs with
        | nil => exact absurd rfl hne
        | cons c rest =>
            obtain ⟨l, hcl⟩ := hl c (List.mem_cons_self c rest)
            have h1 : dGet (mergeStepContext original original c).results k
                = some (.vList (ol ++ ([] ++ l.drop ol.length))) :=
              fold_merge_entries_list original.results k ol hov c.results
                original.results [] l (hnd c (List.mem_cons_self c rest))
                hcl (Or.inr ⟨rfl, hget⟩)
            have hrest := fold_merge_ctxs_list original k ol hov rest
              (mergeStepContext original original c)
              ([] ++ l.drop ol.length)
              (fun d hd => hnd d (List.mem_cons_of_mem c hd))
              (fun d hd => hl d (List.mem_cons_of_mem c hd)) h1
            rw [List.foldl_cons, hrest]
            have hlat : listAt c k = l := by simp [listAt, hcl]
            simp [hlat, hol, List.append_assoc]
  · intro w hget hw
    exact fold_merge_ctxs_replace original k w hget hw ctxs original hne
      hnd hl

/-- Claim C6 witness: the amended rule applied to the concrete
counterexample merge — original absent, writers `[1]` and `[2]`, merged
value `[1, 2]`. -/
theorem C6_witness :
    dGet (ParallelTaskExecutor.mergeContexts emptyCtx
        [c6ctx1, c6ctx2]).results "items" =
      some (.vList [.vInt 1, .vInt 2]) := by
  have h := (C6_list_merge_rule emptyCtx [c6ctx1, c6ctx2] "items"
    (by intro c hc
        simp only [List.mem_cons, List.not_mem_nil, or_false] at hc
        rcases hc with h | h <;> subst h <;> simp [c6ctx1, c6ctx2]
    )
    (by intro c hc
        simp only [List.mem_cons, List.not_mem_nil, or_false] at hc
        rcases hc with h | h <;> subst h
        · exact ⟨[.vInt 1], rfl⟩
        · exact ⟨[.vInt 2], rfl⟩
    )
    (by simp)).1 [] rfl
  simpa [listAt, c6ctx1, c6ctx2, emptyCtx] using h

/-! ### Weight-calculation lemmas -/

/-- The weight entries one plan entry contributes (in write order) when
none of its ids collides with an earlier write. -/
def entryBlock (w : ℚ) : TaskStep → List (String × ℚ)
  | .single s => [(s.step_id, w)]
  | .group ss => ss.map (fun s => (s.step_id, w / ss.length))

theorem entryBlock_keys (w : ℚ) (e : TaskStep) :
    (entryBlock w e).map Prod.fst = e.ids := by
  cases e with
  | single s => rfl
  | group ss => simp [entryBlock, TaskStep.ids]

theorem applyGroupWeights_fresh (u : ℚ) :
    ∀ (ss : List PipelineStep) (d : List (String × ℚ)),
    (ss.map PipelineStep.step_id).Nodup →
    (∀ s ∈ ss, s.step_id ∉ d.map Prod.fst) →
    ProgressTracker.applyGroupWeights u d ss =
      d ++ ss.map (fun s => (s.step_id, u)) := by
  intro ss
  induction ss with
  | nil => intro d _ _; simp [ProgressTracker.applyGroupWeights]
  | cons s rest ih =>
      intro d hnd hfresh
      simp only [List.map_cons, List.nodup_cons] at hnd
      have h1 : dSet d s.step_id u = d ++ [(s.step_id, u)] :=
        dSet_fresh d s.step_id u (hfresh s (List.mem_cons_self s rest))
      have h2 : ∀ t ∈ rest, t.step_id ∉
          (d ++ [(s.step_id, u)]).map Prod.fst := by
        intro t ht
        simp only [List.map_append, List.mem_append, List.map_cons,
          List.map_nil, List.mem_singleton]
        push_neg
        refine ⟨hfresh t (List.mem_cons_of_mem s ht), ?_⟩
        intro hEq
        exact hnd.1 (hEq ▸ List.mem_map_of_mem PipelineStep.step_id ht)
      show ProgressTracker.applyGroupWeights u (dSet d s.step_id u) rest = _
      rw [h1, ih (d ++ [(s.step_id, u)]) hnd.2 h2, List.append_assoc]
      rfl

theorem applyEntryWeight_fresh (w : ℚ) (e : TaskStep)
    (d : List (String × ℚ)) (hnd : e.ids.Nodup)
    (hfresh : ∀ id ∈ e.ids, id ∉ d.map Prod.fst) :
    ProgressTracker.applyEntryWeight w d e = d ++ entryBlock w e := by
  cases e with
  | single s =>
      show dSet d s.step_id w = _
      exact dSet_fresh d s.step_id w
        (hfresh s.step_id (List.mem_singleton_self _))
  | group ss =>
      cases ss with
      | nil => simp [ProgressTracker.applyEntryWeight, entryBlock]
      | cons s rest =>
          show ProgressTracker.applyEntryWeight w d (.group (s :: rest)) = _
          rw [ProgressTracker.applyEntryWeight, if_pos (by simp)]
          exact applyGroupWeights_fresh _ (s :: rest) d hnd
            (fun t ht => hfresh t.step_id
              (List.mem_map_of_mem PipelineStep.step_id ht))

theorem foldEntryWeights_fresh (w : ℚ) :
    ∀ (steps : List TaskStep) (d : List (String × ℚ)),
    (planIds steps).Nodup →
    (∀ id ∈ planIds steps, id ∉ d.map Prod.fst) →
    steps.foldl (ProgressTracker.applyEntryWeight w) d =
      d ++ (steps.map (entryBlock w)).flatten := by
  intro steps
  induction steps with
  | nil => intro d _ _; simp
  | cons e rest ih =>
      intro d hnd hfresh
      have hplan : planIds (e :: rest) = e.ids ++ planIds rest := by
        simp [planIds]
      rw [hplan] at hnd hfresh
      rw [List.nodup_append] at hnd
      obtain ⟨hnde, hndr, hdisj⟩ := hnd
      have h1 : ProgressTracker.applyEntryWeight w d e =
          d ++ entryBlock w e :=
        applyEntryWeight_fresh w e d hnde
          (fun id hid => hfresh id (List.mem_append_left _ hid))
      have h2 : ∀ id ∈ planIds rest,
          id ∉ (d ++ entryBlock w e).map Prod.fst := by
        intro id hid
        simp only [List.map_append, List.mem_append, entryBlock_keys]
        push_neg
        refine ⟨hfresh id (List.mem_append_right _ hid), ?_⟩
        intro hmem
        exact hdisj hmem hid
      rw [List.foldl_cons, h1, ih (d ++ entryBlock w e) hndr h2,
        List.append_assoc]
      rfl

theorem calculateWeights_eq_blocks (steps : List TaskStep)
    (hne : steps ≠ []) (hnd : (planIds steps).Nodup) :
    ProgressTracker.calculateWeights steps =
      (steps.map (entryBlock (100 / steps.length))).flatten := by
  have hlen : steps.length ≠ 0 := by
    intro h
    exact hne (List.length_eq_zero.mp h)
  rw [ProgressTracker.calculateWeights, if_neg hlen]
  simpa using foldEntryWeights_fresh (100 / steps.length) steps [] hnd
    (by simp)

theorem sumValues_append (d1 d2 : List (String × ℚ)) :
    sumValues (d1 ++ d2) = sumValues d1 + sumValues d2 := by
  simp [sumValues]

theorem sumValues_entryBlock (w : ℚ) (e : TaskStep)
    (hgt : ∀ ss, e = TaskStep.group ss → ss ≠ []) :
    sumValues (entryBlock w e) = w := by
  cases e with
  | single s => simp [entryBlock, sumValues]
  | group ss =>
      have hne : ss ≠ [] := hgt ss rfl
      have hlen : (ss.length : ℚ) ≠ 0 := by
        simpa using fun h => hne (List.length_eq_zero.mp h)
      simp only [entryBlock, sumValues, List.map_map]
      have h1 : (ss.map (Prod.snd ∘ fun s => (s.step_id, w / ss.length)))
          = ss.map (fun _ => w / (ss.length : ℚ)) :=
        List.map_congr_left (fun x _ => rfl)
      rw [h1, List.map_const', List.sum_replicate, nsmul_eq_mul]
      field_simp

/-- Claim C4 (amended): for every nonempty plan with pairwise-distinct
step ids and no empty parallel group, each serial entry's step receives
weight `100/N`, each step of a parallel entry with `K` steps receives
`(100/N)/K`, and the weights sum to exactly 100 (the float computation of
the source stays within the spec's 1e-6 tolerance of this rational
value).  The empty plan, a plan holding an empty parallel group, and a
plan with duplicated step ids all violate the unqualified claim. -/
theorem C4_weight_assignment (steps : List TaskStep)
    (hne : steps ≠ []) (hnd : (planIds steps).Nodup)
    (hgroups : ∀ ss, TaskStep.group ss ∈ steps → ss ≠ []) :
    (∀ s, TaskStep.single s ∈ steps →
      dGet (ProgressTracker.calculateWeights steps) s.step_id =
        some ((100 : ℚ) / steps.length)) ∧
    (∀ ss sub, TaskStep.group ss ∈ steps → sub ∈ ss →
      dGet (ProgressTracker.calculateWeights steps) sub.step_id =
        some ((100 : ℚ) / steps.length / ss.length)) ∧
    sumValues (ProgressTracker.calculateWeights steps) = 100 := by
  have hblocks := calculateWeights_eq_blocks steps hne hnd
  have hkeys : (ProgressTracker.calculateWeights steps).map Prod.fst =
      planIds steps := by
    rw [hblocks, List.map_flatten, List.map_map]
    have : (steps.map (List.map Prod.fst ∘ entryBlock (100 / steps.length)))
        = steps.map TaskStep.ids := by
      apply List.map_congr_left
      intro e _
      exact entryBlock_keys _ e
    rw [this]
    rfl
  have hkeysnd : ((ProgressTracker.calculateWeights steps).map
      Prod.fst).Nodup := by
    rw [hkeys]; exact hnd
  refine ⟨?_, ?_, ?_⟩
  · intro s hs
    apply dGet_of_mem_nodup _ _ _ _ hkeysnd
    rw [hblocks]
    rw [List.mem_flatten]
    refine ⟨entryBlock (100 / steps.length) (.single s), ?_, ?_⟩
    · exact List.mem_map_of_mem _ hs
    · simp [entryBlock]
  · intro ss sub hss hsub
    apply dGet_of_mem_nodup _ _ _ _ hkeysnd
    rw [hblocks]
    rw [List.mem_flatten]
    refine ⟨entryBlock (100 / steps.length) (.group ss), ?_, ?_⟩
    · exact List.mem_map_of_mem _ hss
    · simp only [entryBlock]
      exact List.mem_map_of_mem
        (fun s => (s.step_id, (100 : ℚ) / steps.length / ss.length)) hsub
  · rw [hblocks]
    have hsum : ∀ bs : List (List (String × ℚ)),
        sumValues bs.flatten = (bs.map sumValues).sum := by
      intro bs
      induction bs with
      | nil => simp [sumValues]
      | cons b rest ih => simp [sumValues_append, ih]
    rw [hsum, List.map_map]
    have hmap : (steps.map (sumValues ∘ entryBlock (100 / steps.length)))
        = List.replicate steps.length ((100 : ℚ) / steps.length) := by
      rw [show List.replicate steps.length ((100 : ℚ) / steps.length) =
          steps.map (fun _ => (100 / steps.length : ℚ)) by simp]
      apply List.map_congr_left
      intro e he
      exact sumValues_entryBlock _ e (fun ss hss => hgroups ss (hss ▸ he))
    rw [hmap, List.sum_replicate, nsmul_eq_mul]
    have hlen : (steps.length : ℚ) ≠ 0 := by
      simpa using fun h => hne (List.length_eq_zero.mp h)
    field_simp

/-- Claim C4 witness: the amended theorem applied to the two-entry plan
`[A, [B, C]]` — A gets weight 50, B and C get 25 each, and the sum is
100. -/
theorem C4_witness :
    dGet (ProgressTracker.calculateWeights
        [.single (SimpleStep "a" "k" .vNone),
         .group [SimpleStep "b" "k" .vNone, SimpleStep "c" "k" .vNone]])
      "a" = some 50 ∧
    dGet (ProgressTracker.calculateWeights
        [.single (SimpleStep "a" "k" .vNone),
         .group [SimpleStep "b" "k" .vNone, SimpleStep "c" "k" .vNone]])
      "b" = some 25 ∧
    sumValues (ProgressTracker.calculateWeights
        [.single (SimpleStep "a" "k" .vNone),
         .group [SimpleStep "b" "k" .vNone, SimpleStep "c" "k" .vNone]])
      = 100 := by
  have h := C4_weight_assignment
    [.single (SimpleStep "a" "k" .vNone),
     .group [SimpleStep "b" "k" .vNone, SimpleStep "c" "k" .vNone]]
    (by simp)
    (by simp [planIds, TaskStep.ids, SimpleStep])
    (by intro ss hss
        simp only [List.mem_cons, List.not_mem_nil, or_false] at hss
        rcases hss with h | h
        · exact absurd h (by simp)
        · obtain ⟨rfl⟩ := h
          simp)
  refine ⟨?_, ?_, ?_⟩
  · have := h.1 (SimpleStep "a" "k" .vNone) (by simp)
    norm_num [SimpleStep] at this ⊢
    exact this
  · have := h.2.1 [SimpleStep "b" "k" .vNone, SimpleStep "c" "k" .vNone]
      (SimpleStep "b" "k" .vNone) (by simp) (by simp)
    norm_num [SimpleStep] at this ⊢
    exact this
  · exact h.2.2

/-! ### Weight-dict keys for arbitrary plans (no validation) -/

theorem applyGroupWeights_keys (u : ℚ) :
    ∀ (ss : List PipelineStep) (d : List (String × ℚ)),
    (d.map Prod.fst).Nodup →
    (((ProgressTracker.applyGroupWeights u d ss).map Prod.fst).Nodup ∧
     ∀ k, k ∈ (ProgressTracker.applyGroupWeights u d ss).map Prod.fst ↔
       k ∈ d.map Prod.fst ∨ k ∈ ss.map PipelineStep.step_id) := by
  intro ss
  induction ss with
  | nil =>
      intro d h
      exact ⟨h, by simp [ProgressTracker.applyGroupWeights]⟩
  | cons s rest ih =>
      intro d h
      obtain ⟨ha, hb⟩ := ih (dSet d s.step_id u) (nodup_keys_dSet d _ u h)
      refine ⟨ha, ?_⟩
      intro k
      rw [show ProgressTracker.applyGroupWeights u d (s :: rest) =
          ProgressTracker.applyGroupWeights u (dSet d s.step_id u) rest
        from rfl]
      rw [hb k, mem_keys_dSet]
      simp only [List.map_cons, List.mem_cons]
      tauto

theorem applyEntryWeight_keys (w : ℚ) (e : TaskStep) :
    ∀ (d : List (String × ℚ)), (d.map Prod.fst).Nodup →
    (((ProgressTracker.applyEntryWeight w d e).map Prod.fst).Nodup ∧
     ∀ k, k ∈ (ProgressTracker.applyEntryWeight w d e).map Prod.fst ↔
       k ∈ d.map Prod.fst ∨ k ∈ e.ids) := by
  intro d h
  cases e with
  | single s =>
      refine ⟨nodup_keys_dSet d _ w h, ?_⟩
      intro k
      show k ∈ (dSet d s.step_id w).map Prod.fst ↔ _
      rw [mem_keys_dSet]
      simp [TaskStep.ids]
  | group ss =>
      cases ss with
      | nil =>
          refine ⟨h, ?_⟩
          intro k
          simp [ProgressTracker.applyEntryWeight, TaskStep.ids]
      | cons s rest =>
          rw [show ProgressTracker.applyEntryWeight w d (.group (s :: rest))
              = ProgressTracker.applyGroupWeights (w / (s :: rest).length) d
                  (s :: rest) by
            rw [ProgressTracker.applyEntryWeight, if_pos (by simp)]]
          exact applyGroupWeights_keys _ (s :: rest) d h

theorem calculateWeights_keys (steps : List TaskStep) :
    ((ProgressTracker.calculateWeights steps).map Prod.fst).Nodup ∧
    (∀ k, k ∈ (ProgressTracker.calculateWeights steps).map Prod.fst ↔
      k ∈ planIds steps) := by
  have hgen : ∀ (w : ℚ) (entries : List TaskStep) (d : List (String × ℚ)),
      (d.map Prod.fst).Nodup →
      (((entries.foldl (ProgressTracker.applyEntryWeight w) d).map
          Prod.fst).Nodup ∧
       ∀ k, k ∈ (entries.foldl (ProgressTracker.applyEntryWeight w) d).map
          Prod.fst ↔ k ∈ d.map Prod.fst ∨ k ∈ planIds entries) := by
    intro w entries
    induction entries with
    | nil => intro d h; exact ⟨h, by simp [planIds]⟩
    | cons e rest ih =>
        intro d h
        obtain ⟨h1, h2⟩ := applyEntryWeight_keys w e d h
        obtain ⟨ha, hb⟩ := ih (ProgressTracker.applyEntryWeight w d e) h1
        refine ⟨ha, ?_⟩
        intro k
        rw [List.foldl_cons, hb k, h2 k]
        have hplan : planIds (e :: rest) = e.ids ++ planIds rest := by
          simp [planIds]
        rw [hplan]
        simp only [List.mem_append]
        tauto
  by_cases hlen : steps.length = 0
  · have : steps = [] := List.length_eq_zero.mp hlen
    subst this
    exact ⟨by simp [ProgressTracker.calculateWeights],
      by simp [ProgressTracker.calculateWeights, planIds]⟩
  · rw [ProgressTracker.calculateWeights, if_neg hlen]
    have := hgen (100 / steps.length) steps [] (by simp)
    refine ⟨this.1, ?_⟩
    intro k
    rw [this.2 k]
    simp

/-- Claim C8 (amended): `Pipeline.__init__` performs no plan validation
at all.  Construction with a duplicated step id or an empty step id
raises nothing: the pipeline object is built, `run` is callable, and the
tracker's weight dict simply keeps one entry per distinct step id of the
plan (so duplicates silently collapse and the weight sum drops below
100).  No `InvariantViolation` exists anywhere in the source.  (A nested
parallel group is not expressible in the typed plan; in the source it
raises an `AttributeError` during weight calculation, not an
`InvariantViolation`.) -/
theorem C8_no_construction_validation (steps : List TaskStep)
    (config : PipelineConfig) :
    (mkPipeline steps config).steps = steps ∧
    (mkPipeline steps config).progress_tracker =
      ProgressTracker.init steps ∧
    (((mkPipeline steps config).progress_tracker.stepWeights.map
        Prod.fst).Nodup) ∧
    (∀ k, k ∈ (mkPipeline steps config).progress_tracker.stepWeights.map
        Prod.fst ↔ k ∈ planIds steps) :=
  ⟨rfl, rfl, (calculateWeights_keys steps).1, (calculateWeights_keys steps).2⟩

/-- Claim C8 witness: the amended theorem applied to the duplicated-id
plan — the weight dict holds the key "a" and nothing prevents the
construction. -/
theorem C8_witness :
    (mkPipeline dupIdPlan {}).steps = dupIdPlan ∧
    ("a" ∈ (mkPipeline dupIdPlan {}).progress_tracker.stepWeights.map
      Prod.fst) := by
  refine ⟨(C8_no_construction_validation dupIdPlan {}).1, ?_⟩
  rw [(C8_no_construction_validation dupIdPlan {}).2.2.2 "a"]
  simp [planIds, dupIdPlan, TaskStep.ids, SimpleStep]

/-! ### Tracker bounds (claim C10) -/

theorem dSet_vals_pred {α : Type} (P : α → Prop) :
    ∀ (d : List (String × α)) (k : String) (v : α),
    (∀ p ∈ d, P p.2) → P v → ∀ p ∈ dSet d k v, P p.2 := by
  intro d
  induction d with
  | nil =>
      intro k v _ hv p hp
      simp only [dSet, List.mem_singleton] at hp
      subst hp
      exact hv
  | cons q rest ih =>
      intro k v hd hv p hp
      by_cases hq : q.1 = k
      · rw [show dSet (q :: rest) k v = (k, v) :: rest by
          simp [dSet, hq]] at hp
        rcases List.mem_cons.mp hp with h | h
        · subst h; exact hv
        · exact hd p (List.mem_cons_of_mem _ h)
      · rw [show dSet (q :: rest) k v = q :: dSet rest k v by
          simp [dSet, hq]] at hp
        rcases List.mem_cons.mp hp with h | h
        · subst h; exact hd _ (List.mem_cons_self _ _)
        · exact ih k v (fun r hr => hd r (List.mem_cons_of_mem _ hr)) hv p h

theorem sumValues_dSet_le (d : List (String × ℚ)) (k : String) (v : ℚ)
    (hd : ∀ p ∈ d, 0 ≤ p.2) :
    sumValues (dSet d k v) ≤ sumValues d + v := by
  induction d with
  | nil => simp [dSet, sumValues]
  | cons p rest ih =>
      by_cases hp : p.1 = k
      · rw [show dSet (p :: rest) k v = (k, v) :: rest by simp [dSet, hp]]
        have hp2 : 0 ≤ p.2 := hd p (List.mem_cons_self _ _)
        simp only [sumValues, List.map_cons, List.sum_cons]
        linarith
      · rw [show dSet (p :: rest) k v = p :: dSet rest k v by
          simp [dSet, hp]]
        have := ih (fun q hq => hd q (List.mem_cons_of_mem _ hq))
        simp only [sumValues, List.map_cons, List.sum_cons] at this ⊢
        linarith

theorem applyGroupWeights_sum_le (u : ℚ) (hu : 0 ≤ u) :
    ∀ (ss : List PipelineStep) (d : List (String × ℚ)),
    (∀ p ∈ d, 0 ≤ p.2) →
    (sumValues (ProgressTracker.applyGroupWeights u d ss) ≤
        sumValues d + ss.length * u ∧
     ∀ p ∈ ProgressTracker.applyGroupWeights u d ss, 0 ≤ p.2) := by
  intro ss
  induction ss with
  | nil =>
      intro d hd
      exact ⟨by simp [ProgressTracker.applyGroupWeights], hd⟩
  | cons s rest ih =>
      intro d hd
      have hd1 : ∀ p ∈ dSet d s.step_id u, 0 ≤ p.2 :=
        dSet_vals_pred _ d s.step_id u hd hu
      obtain ⟨h1, h2⟩ := ih (dSet d s.step_id u) hd1
      refine ⟨?_, h2⟩
      have h3 : sumValues (dSet d s.step_id u) ≤ sumValues d + u :=
        sumValues_dSet_le d s.step_id u hd
      have hrw : ProgressTracker.applyGroupWeights u d (s :: rest) =
          ProgressTracker.applyGroupWeights u (dSet d s.step_id u) rest :=
        rfl
      rw [hrw]
      have hlen : ((s :: rest).length : ℚ) * u = rest.length * u + u := by
        simp only [List.length_cons]
        push_cast
        ring
      rw [hlen]
      linarith

theorem applyEntryWeight_sum_le (w : ℚ) (hw : 0 ≤ w) (e : TaskStep)
    (d : List (String × ℚ)) (hd : ∀ p ∈ d, 0 ≤ p.2) :
    sumValues (ProgressTracker.applyEntryWeight w d e) ≤ sumValues d + w ∧
    ∀ p ∈ ProgressTracker.applyEntryWeight w d e, 0 ≤ p.2 := by
  cases e with
  | single s =>
      exact ⟨sumValues_dSet_le d s.step_id w hd,
        dSet_vals_pred _ d s.step_id w hd hw⟩
  | group ss =>
      cases ss with
      | nil =>
          refine ⟨?_, hd⟩
          show sumValues d ≤ sumValues d + w
          linarith
      | cons s rest =>
          have hlen : (0 : ℚ) < (s :: rest).length := by
            simp only [List.length_cons]
            push_cast
            linarith [Nat.cast_nonneg (α := ℚ) rest.length]
          have hu : 0 ≤ w / ((s :: rest).length : ℚ) :=
            div_nonneg hw (le_of_lt hlen)
          obtain ⟨h1, h2⟩ := applyGroupWeights_sum_le _ hu (s :: rest) d hd
          rw [show ProgressTracker.applyEntryWeight w d (.group (s :: rest))
              = ProgressTracker.applyGroupWeights
                  (w / (s :: rest).length) d (s :: rest) by
            rw [ProgressTracker.applyEntryWeight, if_pos (by simp)]]
          refine ⟨?_, h2⟩
          have hne : ((s :: rest).length : ℚ) ≠ 0 := ne_of_gt hlen
          have heq : ((s :: rest).length : ℚ) *
              (w / ((s :: rest).length : ℚ)) = w := by
            field_simp
          rw [heq] at h1
          exact h1

theorem calculateWeights_sum_le (steps : List TaskStep) :
    sumValues (ProgressTracker.calculateWeights steps) ≤ 100 ∧
    ∀ p ∈ ProgressTracker.calculateWeights steps, 0 ≤ p.2 := by
  have hgen : ∀ (w : ℚ), 0 ≤ w → ∀ (entries : List TaskStep)
      (d : List (String × ℚ)), (∀ p ∈ d, 0 ≤ p.2) →
      sumValues (entries.foldl (ProgressTracker.applyEntryWeight w) d) ≤
        sumValues d + entries.length * w ∧
      ∀ p ∈ entries.foldl (ProgressTracker.applyEntryWeight w) d,
        0 ≤ p.2 := by
    intro w hw entries
    induction entries with
    | nil => intro d hd; exact ⟨by simp, hd⟩
    | cons e rest ih =>
        intro d hd
        obtain ⟨h1, h2⟩ := applyEntryWeight_sum_le w hw e d hd
        obtain ⟨h3, h4⟩ := ih (ProgressTracker.applyEntryWeight w d e) h2
        rw [List.foldl_cons]
        refine ⟨?_, h4⟩
        have hlen : ((e :: rest).length : ℚ) * w = rest.length * w + w := by
          simp only [List.length_cons]
          push_cast
          ring
        rw [hlen]
        linarith
  by_cases hlen : steps.length = 0
  · rw [ProgressTracker.calculateWeights, if_pos hlen]
    exact ⟨by norm_num [sumValues], by simp⟩
  · rw [ProgressTracker.calculateWeights, if_neg hlen]
    have hw : (0 : ℚ) ≤ 100 / steps.length := by positivity
    obtain ⟨h1, h2⟩ := hgen (100 / steps.length) hw steps [] (by simp)
    refine ⟨?_, h2⟩
    have hq : (steps.length : ℚ) ≠ 0 := by
      simpa using hlen
    have heq : sumValues ([] : List (String × ℚ)) +
        (steps.length : ℚ) * (100 / steps.length) = 100 := by
      rw [show sumValues ([] : List (String × ℚ)) = 0 from rfl]
      field_simp
    linarith [heq ▸ h1]

theorem foldl_add_map {α : Type} (f : α → ℚ) :
    ∀ (l : List α) (a : ℚ),
    l.foldl (fun acc x => acc + f x) a = a + (l.map f).sum := by
  intro l
  induction l with
  | nil => intro a; simp
  | cons x xs ih =>
      intro a
      rw [List.foldl_cons, ih, List.map_cons, List.sum_cons]
      ring

theorem overall_as_sum (t : ProgressTracker) :
    t.get_overall_progress =
      (t.stepWeights.map
        (fun kv => kv.2 * ((dGet t.stepProgress kv.1).getD 0 / 100))).sum := by
  rw [ProgressTracker.get_overall_progress, foldl_add_map]
  simp

theorem overall_bounds (t : ProgressTracker)
    (hw : ∀ p ∈ t.stepWeights, 0 ≤ p.2)
    (hp : ∀ p ∈ t.stepProgress, 0 ≤ p.2 ∧ p.2 ≤ 100) :
    0 ≤ t.get_overall_progress ∧
    t.get_overall_progress ≤ sumValues t.stepWeights := by
  have hterm : ∀ kv ∈ t.stepWeights,
      0 ≤ kv.2 * ((dGet t.stepProgress kv.1).getD 0 / 100) ∧
      kv.2 * ((dGet t.stepProgress kv.1).getD 0 / 100) ≤ kv.2 := by
    intro kv hkv
    have h1 : 0 ≤ kv.2 := hw kv hkv
    have h2 : 0 ≤ (dGet t.stepProgress kv.1).getD 0 ∧
        (dGet t.stepProgress kv.1).getD 0 ≤ 100 := by
      cases hv : dGet t.stepProgress kv.1 with
      | none => simp
      | some v =>
          have := hp (kv.1, v) (dGet_mem _ _ _ hv)
          simpa using this
    constructor
    · exact mul_nonneg h1 (div_nonneg h2.1 (by norm_num))
    · have h3 : (dGet t.stepProgress kv.1).getD 0 / 100 ≤ 1 := by
        rw [div_le_one (by norm_num : (0:ℚ) < 100)]
        exact h2.2
      calc kv.2 * ((dGet t.stepProgress kv.1).getD 0 / 100) ≤ kv.2 * 1 :=
            mul_le_mul_of_nonneg_left h3 h1
        _ = kv.2 := mul_one _
  rw [overall_as_sum]
  constructor
  · apply List.sum_nonneg
    intro x hx
    obtain ⟨kv, hkv, rfl⟩ := List.mem_map.mp hx
    exact (hterm kv hkv).1
  · have := List.sum_le_sum (fun kv hkv => (hterm kv hkv).2)
    simpa [sumValues] using this

theorem fold_updates_weights (updates : List (String × ℚ)) :
    ∀ t : ProgressTracker,
    (updates.foldl
      (fun t u => t.update_step_progress u.1 u.2) t).stepWeights =
      t.stepWeights := by
  induction updates with
  | nil => intro t; rfl
  | cons u rest ih => intro t; rw [List.foldl_cons, ih]; rfl

theorem fold_updates_progress_bounded (updates : List (String × ℚ)) :
    ∀ t : ProgressTracker,
    (∀ p ∈ t.stepProgress, 0 ≤ p.2 ∧ p.2 ≤ 100) →
    ∀ p ∈ (updates.foldl
        (fun t u => t.update_step_progress u.1 u.2) t).stepProgress,
      0 ≤ p.2 ∧ p.2 ≤ 100 := by
  induction updates with
  | nil => intro t ht; exact ht
  | cons u rest ih =>
      intro t ht
      rw [List.foldl_cons]
      apply ih
      exact dSet_vals_pred (fun v => 0 ≤ v ∧ v ≤ 100) t.stepProgress u.1 _
        ht ⟨le_max_left 0 _, max_le (by norm_num) (min_le_left _ _)⟩

theorem update_unknown_id (t : ProgressTracker) (id : String) (p : ℚ)
    (h : id ∉ t.stepWeights.map Prod.fst) :
    (t.update_step_progress id p).get_overall_progress =
      t.get_overall_progress ∧
    (t.update_step_progress id p).get_step_details = t.get_step_details ∧
    dGet (t.update_step_progress id p).stepProgress id =
      some (max 0 (min 100 p)) := by
  have hne : ∀ kv ∈ t.stepWeights, kv.1 ≠ id := by
    intro kv hkv hEq
    exact h (hEq ▸ List.mem_map_of_mem Prod.fst hkv)
  have hget : ∀ kv ∈ t.stepWeights,
      dGet (t.update_step_progress id p).stepProgress kv.1 =
        dGet t.stepProgress kv.1 := by
    intro kv hkv
    exact dGet_dSet_other _ _ _ _ (hne kv hkv)
  refine ⟨?_, ?_, ?_⟩
  · rw [overall_as_sum, overall_as_sum]
    have hweq : (t.update_step_progress id p).stepWeights =
        t.stepWeights := rfl
    rw [hweq]
    congr 1
    apply List.map_congr_left
    intro kv hkv
    rw [hget kv hkv]
  · rw [ProgressTracker.get_step_details, ProgressTracker.get_step_details]
    apply List.map_congr_left
    intro kv hkv
    rw [show (t.update_step_progress id p).stepWeights = t.stepWeights
      from rfl] at hkv
    rw [hget kv hkv]
  · exact dGet_dSet_same _ _ _

/-- Claim C10: the tracker reports only over the step ids that received
weights at construction.  An update with an id outside the weight dict is
recorded in the internal progress state but changes neither the reported
overall progress nor the step details; and after any sequence of updates
with arbitrary ids and arbitrary percents, the overall progress lies
within `[0, Σ weights]`, and the weights of any plan sum to at most 100,
so the overall progress lies within `[0, 100]`. -/
theorem C10_tracker_report_bounds (steps : List TaskStep)
    (updates : List (String × ℚ)) :
    (∀ id p, id ∉ (updates.foldl
          (fun t u => t.update_step_progress u.1 u.2)
          (ProgressTracker.init steps)).stepWeights.map Prod.fst →
       (((updates.foldl (fun t u => t.update_step_progress u.1 u.2)
            (ProgressTracker.init steps)).update_step_progress id
              p).get_overall_progress =
          (updates.foldl (fun t u => t.update_step_progress u.1 u.2)
            (ProgressTracker.init steps)).get_overall_progress ∧
        ((updates.foldl (fun t u => t.update_step_progress u.1 u.2)
            (ProgressTracker.init steps)).update_step_progress id
              p).get_step_details =
          (updates.foldl (fun t u => t.update_step_progress u.1 u.2)
            (ProgressTracker.init steps)).get_step_details ∧
        dGet ((updates.foldl (fun t u => t.update_step_progress u.1 u.2)
            (ProgressTracker.init steps)).update_step_progress id
              p).stepProgress id = some (max 0 (min 100 p)))) ∧
    0 ≤ (updates.foldl (fun t u => t.update_step_progress u.1 u.2)
        (ProgressTracker.init steps)).get_overall_progress ∧
    (updates.foldl (fun t u => t.update_step_progress u.1 u.2)
        (ProgressTracker.init steps)).get_overall_progress ≤
      sumValues (updates.foldl (fun t u => t.update_step_progress u.1 u.2)
        (ProgressTracker.init steps)).stepWeights ∧
    sumValues (updates.foldl (fun t u => t.update_step_progress u.1 u.2)
        (ProgressTracker.init steps)).stepWeights ≤ 100 := by
  have hweights : (updates.foldl
      (fun t u => t.update_step_progress u.1 u.2)
      (ProgressTracker.init steps)).stepWeights =
      ProgressTracker.calculateWeights steps :=
    fold_updates_weights updates (ProgressTracker.init steps)
  have hwnn : ∀ p ∈ (updates.foldl
      (fun t u => t.update_step_progress u.1 u.2)
      (ProgressTracker.init steps)).stepWeights, 0 ≤ p.2 := by
    rw [hweights]
    exact (calculateWeights_sum_le steps).2
  have hpb := fold_updates_progress_bounded updates
    (ProgressTracker.init steps) (by simp [ProgressTracker.init])
  obtain ⟨hlo, hhi⟩ := overall_bounds _ hwnn hpb
  refine ⟨?_, hlo, hhi, ?_⟩
  · intro id p hid
    exact update_unknown_id _ id p hid
  · rw [hweights]
    exact (calculateWeights_sum_le steps).1

/-- Claim C10 witness: the bound theorem instantiated with a one-step
plan and an out-of-plan update with an out-of-range percent: the overall
report is unchanged by the stray update, sits in `[0, 100]`, and the
stray id was recorded with its percent clamped to 100. -/
theorem C10_witness :
    ((([(("zz", (250 : ℚ)))].foldl
        (fun t u => t.update_step_progress u.1 u.2)
        (ProgressTracker.init
          [.single (SimpleStep "a" "k" .vNone)])).update_step_progress
            "zz" 250).get_overall_progress =
      ([(("zz", (250 : ℚ)))].foldl
        (fun t u => t.update_step_progress u.1 u.2)
        (ProgressTracker.init
          [.single (SimpleStep "a" "k" .vNone)])).get_overall_progress) ∧
    0 ≤ ([(("zz", (250 : ℚ)))].foldl
        (fun t u => t.update_step_progress u.1 u.2)
        (ProgressTracker.init
          [.single (SimpleStep "a" "k" .vNone)])).get_overall_progress ∧
    sumValues ([(("zz", (250 : ℚ)))].foldl
        (fun t u => t.update_step_progress u.1 u.2)
        (ProgressTracker.init
          [.single (SimpleStep "a" "k" .vNone)])).stepWeights ≤ 100 := by
  have h := C10_tracker_report_bounds
    [.single (SimpleStep "a" "k" .vNone)] [("zz", (250 : ℚ))]
  refine ⟨?_, h.2.1, h.2.2.2⟩
  exact (h.1 "zz" 250 (by
    rw [fold_updates_weights]
    simp [ProgressTracker.init, ProgressTracker.calculateWeights,
      ProgressTracker.applyEntryWeight, SimpleStep, dSet])).1

/-! ### Auto-completion (claim C5) -/

theorem clamp_100 : max (0 : ℚ) (min 100 100) = 100 := by norm_num

theorem update_stepProgress_def (t : ProgressTracker) (id : String)
    (p : ℚ) : (t.update_step_progress id p).stepProgress =
      dSet t.stepProgress id (max 0 (min 100 p)) := rfl

theorem foldl_update_const_other (id : String) (ps : List ℚ) :
    ∀ (t : ProgressTracker) (id' : String), id' ≠ id →
    dGet ((ps.foldl
        (fun acc p => acc.update_step_progress id p) t)).stepProgress id' =
      dGet t.stepProgress id' := by
  induction ps with
  | nil => intro t _ _; rfl
  | cons p rest ih =>
      intro t id' h
      rw [List.foldl_cons, ih _ _ h]
      exact dGet_dSet_other _ _ _ _ h

theorem applyReports_other (t : ProgressTracker) (id : String)
    (ps : List ℚ) (id' : String) (h : id' ≠ id) :
    dGet (applyReports t id ps).stepProgress id' =
      dGet t.stepProgress id' := by
  rw [applyReports]
  split
  · rfl
  · exact foldl_update_const_other id ps t id' h

theorem foldl_applyReports_other (g : PipelineStep → List ℚ) :
    ∀ (ss : List PipelineStep) (t : ProgressTracker) (id : String),
    id ∉ ss.map PipelineStep.step_id →
    dGet ((ss.foldl
        (fun t s => applyReports t s.step_id (g s)) t)).stepProgress id =
      dGet t.stepProgress id := by
  intro ss
  induction ss with
  | nil => intro t id _; rfl
  | cons s rest ih =>
      intro t id h
      simp only [List.map_cons, List.mem_cons] at h
      push_neg at h
      rw [List.foldl_cons, ih _ _ h.2]
      exact applyReports_other _ _ _ _ h.1

theorem foldl_autocomplete_other :
    ∀ (ss : List PipelineStep) (t : ProgressTracker) (id : String),
    id ∉ ss.map PipelineStep.step_id →
    dGet ((ss.foldl
        (fun t s => t.update_step_progress s.step_id 100) t)).stepProgress
      id = dGet t.stepProgress id := by
  intro ss
  induction ss with
  | nil => intro t id _; rfl
  | cons s rest ih =>
      intro t id h
      simp only [List.map_cons, List.mem_cons] at h
      push_neg at h
      rw [List.foldl_cons, ih _ _ h.2]
      exact dGet_dSet_other _ _ _ _ h.1

theorem foldl_autocomplete_mem :
    ∀ (ss : List PipelineStep) (t : ProgressTracker) (id : String),
    id ∈ ss.map PipelineStep.step_id →
    dGet ((ss.foldl
        (fun t s => t.update_step_progress s.step_id 100) t)).stepProgress
      id = some 100 := by
  intro ss
  induction ss with
  | nil => intro t id h; simp at h
  | cons s rest ih =>
      intro t id h
      by_cases hr : id ∈ rest.map PipelineStep.step_id
      · rw [List.foldl_cons]
        exact ih _ _ hr
      · simp only [List.map_cons, List.mem_cons] at h
        rcases h with h | h
        · subst h
          rw [List.foldl_cons, foldl_autocomplete_other rest _ _ hr,
            update_stepProgress_def, clamp_100]
          exact dGet_dSet_same _ _ _
        · exact absurd h hr

theorem parallel_execute_ok_tracker (ss : List PipelineStep)
    (ctx : PipelineContext) (cfg : ParallelConfig) (tr : ProgressTracker)
    (merged : PipelineContext) (t1 : ProgressTracker)
    (h : ParallelTaskExecutor.execute ss ctx cfg tr = .ok (merged, t1)) :
    ∀ id, id ∉ ss.map PipelineStep.step_id →
      dGet t1.stepProgress id = dGet tr.stepProgress id := by
  intro id hid
  cases ss with
  | nil =>
      simp only [ParallelTaskExecutor.execute, Except.ok.injEq,
        Prod.mk.injEq] at h
      rw [← h.2]
  | cons s rest =>
      simp only [ParallelTaskExecutor.execute] at h
      split at h
      · simp only [Except.ok.injEq, Prod.mk.injEq] at h
        rw [← h.2]
        exact foldl_applyReports_other _ (s :: rest) tr id hid
      · cases h

theorem processEntry_ok_tracker (config : PipelineConfig)
    (total idx : ℕ) (entry : TaskStep) (st st1 : RunState)
    (h : Pipeline.processEntry config total idx entry st = .ok st1) :
    (∀ id ∈ entry.ids, st1.tracker.internalProgress id = 100) ∧
    (∀ id, id ∉ entry.ids →
      dGet st1.tracker.stepProgress id = dGet st.tracker.stepProgress id) := by
  cases entry with
  | single s =>
      simp only [Pipeline.processEntry] at h
      split at h
      · simp only [Except.ok.injEq] at h
        subst h
        constructor
        · intro id hid
          simp only [TaskStep.ids, List.mem_singleton] at hid
          subst hid
          show ((applyReports st.tracker s.step_id _).update_step_progress
            s.step_id 100).internalProgress s.step_id = 100
          rw [ProgressTracker.internalProgress, update_stepProgress_def,
            clamp_100, dGet_dSet_same]
          rfl
        · intro id hid
          simp only [TaskStep.ids, List.mem_singleton] at hid
          show dGet ((applyReports st.tracker s.step_id
            _).update_step_progress s.step_id 100).stepProgress id = _
          rw [update_stepProgress_def, dGet_dSet_other _ _ _ _ hid,
            applyReports_other _ _ _ _ hid]
      · cases h
  | group ss =>
      simp only [Pipeline.processEntry] at h
      split at h
      case _ merged t1 heq =>
        simp only [Except.ok.injEq] at h
        subst h
        constructor
        · intro id hid
          simp only [TaskStep.ids] at hid
          show ((ss.foldl (fun t s =>
            t.update_step_progress s.step_id 100) t1)).internalProgress id
            = 100
          rw [ProgressTracker.internalProgress,
            foldl_autocomplete_mem ss t1 id hid]
          rfl
        · intro id hid
          simp only [TaskStep.ids] at hid
          show dGet ((ss.foldl (fun t s =>
            t.update_step_progress s.step_id 100) t1)).stepProgress id = _
          rw [foldl_autocomplete_other ss t1 id hid]
          exact parallel_execute_ok_tracker ss _ _ _ _ _ heq id hid
      case _ e heq => cases h

theorem runAux_ok_progress (config : PipelineConfig) (total : ℕ)
    (hff : config.fail_fast = true) :
    ∀ (entries : List TaskStep) (idx : ℕ) (st st' : RunState),
    Pipeline.runAux config total idx entries st = .ok st' →
    (∀ id, id ∈ planIds entries →
      st'.tracker.internalProgress id = 100) ∧
    (∀ id, id ∉ planIds entries →
      dGet st'.tracker.stepProgress id = dGet st.tracker.stepProgress id) := by
  intro entries
  induction entries with
  | nil =>
      intro idx st st' h
      simp only [Pipeline.runAux, RunResult.ok.injEq] at h
      subst h
      exact ⟨fun id hid => by simp [planIds] at hid, fun id _ => rfl⟩
  | cons e rest ih =>
      intro idx st st' h
      simp only [Pipeline.runAux] at h
      split at h
      case _ st1 heq =>
        obtain ⟨hmem, hother⟩ :=
          processEntry_ok_tracker config total idx e st st1 heq
        obtain ⟨hmem2, hother2⟩ := ih (idx + 1) st1 st' h
        have hplan : ∀ id, id ∈ planIds (e :: rest) ↔
            id ∈ e.ids ∨ id ∈ planIds rest := by
          intro id
          simp [planIds]
        constructor
        · intro id hid
          rcases (hplan id).mp hid with hco | hco
          · by_cases hr : id ∈ planIds rest
            · exact hmem2 id hr
            · rw [ProgressTracker.internalProgress, hother2 id hr]
              exact hmem id hco
          · exact hmem2 id hco
        · intro id hid
          rw [hplan id] at hid
          push_neg at hid
          rw [hother2 id hid.2, hother id hid.1]
      case _ e1 st1 heq =>
        rw [hff] at h
        simp only [if_true] at h
        cases h

/-- Claim C5 (amended): with `fail_fast=true`, whenever `Pipeline.run`
returns normally, the tracker's internal progress of every step id of the
plan equals 100 — every position completed without a propagated
exception, so the pipeline auto-completed every step, whether or not the
step ever reported progress itself.  (With `fail_fast=false` the claim
fails: `run` returns normally even when a position raised, and that
position's steps are never auto-completed.) -/
theorem C5_auto_completion (steps : List TaskStep)
    (config : PipelineConfig) (context : PipelineContext)
    (hff : config.fail_fast = true)
    (h : ((mkPipeline steps config).run context).isNormal = true) :
    ∀ id ∈ planIds steps,
      ((mkPipeline steps config).run context).finalTracker.internalProgress
        id = 100 := by
  intro id hid
  cases hrun : (mkPipeline steps config).run context with
  | ok st' =>
      have := (runAux_ok_progress config steps.length hff steps 0 _ st'
        hrun).1 id hid
      rw [hrun] at *
      simpa [RunResult.finalTracker, RunResult.finalState] using this
  | raised e st' =>
      rw [hrun] at h
      simp [RunResult.isNormal] at h

/-- Claim C5 witness: the amended theorem applied to a one-step plan
whose step succeeds without ever reporting progress — its internal
progress still ends at 100. -/
theorem C5_witness :
    (((mkPipeline [.single (SimpleStep "a" "k" (.vInt 1))] {}).run
        emptyCtx).isNormal = true) ∧
    ((mkPipeline [.single (SimpleStep "a" "k" (.vInt 1))] {}).run
        emptyCtx).finalTracker.internalProgress "a" = 100 := by
  refine ⟨rfl, ?_⟩
  exact C5_auto_completion [.single (SimpleStep "a" "k" (.vInt 1))] {}
    emptyCtx rfl rfl "a" (by simp [planIds, TaskStep.ids, SimpleStep])

/-! ### Fail-slow error accounting (claim C2) -/

/-- The steps a plan entry holds. -/
def TaskStep.stepsOf : TaskStep → List PipelineStep
  | .single s => [s]
  | .group ss => ss

/-- Definite behavior of a step under a failure labelling: a
labelled-failing step always raises, and a labelled-succeeding step
always returns normally; in both cases the step leaves the context's
error list as it found it (the error-count formula presupposes that steps
touch `errors` only by raising). -/
def StepDefinite (fails : PipelineStep → Bool) (s : PipelineStep) : Prop :=
  if fails s then
    ∀ ctx, ∃ e cm, s.run ctx = .exn e cm ∧ cm.errors = ctx.errors
  else
    ∀ ctx, ∃ c2, s.run ctx = .ok c2 ∧ c2.errors = ctx.errors

/-- A parallel branch's future completes normally unless its step fails
and is critical (only then does `TaskExecutor.execute` re-raise). -/
def branchOk (fails : PipelineStep → Bool) (s : PipelineStep) : Bool :=
  !(fails s && s.critical)

/-- Whether a plan position raises into the pipeline's handler. -/
def entryRaises (op : LogicOperator) (fails : PipelineStep → Bool) :
    TaskStep → Bool
  | .single s => fails s && s.critical
  | .group ss =>
      !ss.isEmpty &&
        !(match op with
          | .AND => ss.all (branchOk fails)
          | .OR => ss.any (branchOk fails))

/-- The number of errors one plan position adds to the context under
fail-slow execution: a failing critical serial step contributes 2 (the
executor appends the exception and the pipeline handler appends it
again), a failing non-critical serial step 1, a failing parallel group 1
(the group error), a successful parallel group one error per failing
non-critical branch, anything else 0. -/
def expectedErrors (op : LogicOperator) (fails : PipelineStep → Bool) :
    TaskStep → ℕ
  | .single s => if fails s then (if s.critical then 2 else 1) else 0
  | .group ss =>
      if ss.isEmpty then 0
      else if (match op with
               | .AND => ss.all (branchOk fails)
               | .OR => ss.any (branchOk fails)) then
        (ss.filter (fun s => fails s && !s.critical)).length
      else 1

theorem execute_definite_fail_crit (fails : PipelineStep → Bool)
    (s : PipelineStep) (hdef : StepDefinite fails s)
    (hf : fails s = true) (hc : s.critical = true)
    (ctx : PipelineContext) :
    ∃ e cE, TaskExecutor.execute s ctx = .error (e, cE) ∧
      cE.errors = ctx.errors ++ [e] := by
  rw [StepDefinite, if_pos hf] at hdef
  obtain ⟨e, cm, hrun, herr⟩ := hdef ctx
  refine ⟨e, { cm with errors := cm.errors ++ [e] }, ?_, by rw [herr]⟩
  rw [TaskExecutor.execute, hrun]
  simp [hc]

theorem execute_definite_fail_noncrit (fails : PipelineStep → Bool)
    (s : PipelineStep) (hdef : StepDefinite fails s)
    (hf : fails s = true) (hc : s.critical = false)
    (ctx : PipelineContext) :
    ∃ e c2, TaskExecutor.execute s ctx = .ok c2 ∧
      c2.errors = ctx.errors ++ [e] := by
  rw [StepDefinite, if_pos hf] at hdef
  obtain ⟨e, cm, hrun, herr⟩ := hdef ctx
  refine ⟨e, { cm with errors := cm.errors ++ [e] }, ?_, by rw [herr]⟩
  rw [TaskExecutor.execute, hrun]
  simp [hc]

theorem execute_definite_ok (fails : PipelineStep → Bool)
    (s : PipelineStep) (hdef : StepDefinite fails s)
    (hf : fails s = false) (ctx : PipelineContext) :
    ∃ c2, TaskExecutor.execute s ctx = .ok c2 ∧
      c2.errors = ctx.errors := by
  rw [StepDefinite, if_neg (by rw [hf]; exact Bool.false_ne_true)] at hdef
  obtain ⟨c2, hrun, herr⟩ := hdef ctx
  exact ⟨c2, by rw [TaskExecutor.execute, hrun], herr⟩

theorem execute_isOk_eq_branchOk (fails : PipelineStep → Bool)
    (s : PipelineStep) (hdef : StepDefinite fails s)
    (ctx : PipelineContext) :
    exceptIsOk (TaskExecutor.execute s ctx) = branchOk fails s := by
  by_cases hf : fails s = true
  · by_cases hc : s.critical = true
    · obtain ⟨e, cE, heq, _⟩ :=
        execute_definite_fail_crit fails s hdef hf hc ctx
      rw [heq, branchOk, hf, hc]
      rfl
    · rw [Bool.not_eq_true] at hc
      obtain ⟨e, c2, heq, _⟩ :=
        execute_definite_fail_noncrit fails s hdef hf hc ctx
      rw [heq, branchOk, hf, hc]
      rfl
  · rw [Bool.not_eq_true] at hf
    obtain ⟨c2, heq, _⟩ := execute_definite_ok fails s hdef hf ctx
    rw [heq, branchOk, hf]
    rfl

theorem list_all_congr {α : Type} (l : List α) (f g : α → Bool)
    (h : ∀ x ∈ l, f x = g x) : l.all f = l.all g := by
  induction l with
  | nil => rfl
  | cons x xs ih => simp_all

theorem list_any_congr {α : Type} (l : List α) (f g : α → Bool)
    (h : ∀ x ∈ l, f x = g x) : l.any f = l.any g := by
  induction l with
  | nil => rfl
  | cons x xs ih => simp_all

theorem mergeStepContext_errors (original merged c : PipelineContext) :
    (mergeStepContext original merged c).errors =
      merged.errors ++ c.errors.drop original.errors.length := rfl

theorem mergeContexts_errors (original : PipelineContext) :
    ∀ (ctxs : List PipelineContext) (merged : PipelineContext),
    ((ctxs.foldl (mergeStepContext original) merged)).errors =
      merged.errors ++
        (ctxs.map
          (fun c => c.errors.drop original.errors.length)).flatten := by
  intro ctxs
  induction ctxs with
  | nil => intro merged; simp
  | cons c rest ih =>
      intro merged
      rw [List.foldl_cons, ih, mergeStepContext_errors]
      simp

theorem stepContexts_errors_length (fails : PipelineStep → Bool)
    (ctx : PipelineContext) :
    ∀ (ss : List PipelineStep), (∀ s ∈ ss, StepDefinite fails s) →
    ((((ss.map (fun s => TaskExecutor.execute s
          { ctx with currentStepId := some s.step_id })).filterMap
        (fun r => match r with
          | .ok c => some c
          | .error _ => none)).map
      (fun c => (c.errors.drop ctx.errors.length).length)).sum =
      (ss.filter (fun s => fails s && !s.critical)).length) := by
  intro ss
  induction ss with
  | nil => intro _; rfl
  | cons s rest ih =>
      intro hdef
      have hrest := ih (fun t ht => hdef t (List.mem_cons_of_mem s ht))
      have hs := hdef s (List.mem_cons_self s rest)
      by_cases hf : fails s = true
      · by_cases hc : s.critical = true
        · obtain ⟨e, cE, heq, _⟩ := execute_definite_fail_crit fails s hs
            hf hc { ctx with currentStepId := some s.step_id }
          have hfil : (s :: rest).filter
              (fun s => fails s && !s.critical) =
              rest.filter (fun s => fails s && !s.critical) := by
            rw [List.filter_cons, if_neg (by simp [hf, hc])]
          rw [List.map_cons, heq, hfil]
          simpa using hrest
        · rw [Bool.not_eq_true] at hc
          obtain ⟨e, c2, heq, herr⟩ := execute_definite_fail_noncrit fails
            s hs hf hc { ctx with currentStepId := some s.step_id }
          have hfil : (s :: rest).filter
              (fun s => fails s && !s.critical) =
              s :: rest.filter (fun s => fails s && !s.critical) := by
            rw [List.filter_cons, if_pos (by simp [hf, hc])]
          have hdrop : (c2.errors.drop ctx.errors.length).length = 1 := by
            have : c2.errors = ctx.errors ++ [e] := herr
            rw [this, List.drop_left]
            rfl
          rw [List.map_cons, heq, hfil]
          simp only [List.filterMap_cons, List.map_cons, List.sum_cons,
            List.length_cons, hdrop, hrest]
          omega
      · rw [Bool.not_eq_true] at hf
        obtain ⟨c2, heq, herr⟩ := execute_definite_ok fails s hs hf
          { ctx with currentStepId := some s.step_id }
        have hfil : (s :: rest).filter
            (fun s => fails s && !s.critical) =
            rest.filter (fun s => fails s && !s.critical) := by
          rw [List.filter_cons, if_neg (by simp [hf])]
        have hdrop : (c2.errors.drop ctx.errors.length).length = 0 := by
          have : c2.errors = ctx.errors := herr
          rw [this, List.drop_length]
          rfl
        rw [List.map_cons, heq, hfil]
        simp only [List.filterMap_cons, List.map_cons, List.sum_cons,
          hdrop, hrest]
        omega

theorem parallel_groupSucceeded_eq (fails : PipelineStep → Bool)
    (ctx : PipelineContext) (op : LogicOperator)
    (ss : List PipelineStep) (hdef : ∀ s ∈ ss, StepDefinite fails s) :
    (match op with
     | .AND => (ss.map (fun s => TaskExecutor.execute s
         { ctx with currentStepId := some s.step_id })).all exceptIsOk
     | .OR => (ss.map (fun s => TaskExecutor.execute s
         { ctx with currentStepId := some s.step_id })).any exceptIsOk) =
    (match op with
     | .AND => ss.all (branchOk fails)
     | .OR => ss.any (branchOk fails)) := by
  cases op with
  | AND =>
      show (ss.map _).all exceptIsOk = ss.all (branchOk fails)
      induction ss with
      | nil => rfl
      | cons s rest ih =>
          simp only [List.map_cons, List.all_cons,
            execute_isOk_eq_branchOk fails s
              (hdef s (List.mem_cons_self s rest)) _,
            ih (fun t ht => hdef t (List.mem_cons_of_mem s ht))]
  | OR =>
      show (ss.map _).any exceptIsOk = ss.any (branchOk fails)
      induction ss with
      | nil => rfl
      | cons s rest ih =>
          simp only [List.map_cons, List.any_cons,
            execute_isOk_eq_branchOk fails s
              (hdef s (List.mem_cons_self s rest)) _,
            ih (fun t ht => hdef t (List.mem_cons_of_mem s ht))]

theorem parallel_execute_definite_ok (fails : PipelineStep → Bool)
    (ss : List PipelineStep) (hne : ss ≠ [])
    (hdef : ∀ s ∈ ss, StepDefinite fails s) (ctx : PipelineContext)
    (cfg : ParallelConfig) (tr : ProgressTracker)
    (hok : (match cfg.operator with
            | .AND => ss.all (branchOk fails)
            | .OR => ss.any (branchOk fails)) = true) :
    ∃ merged t1,
      ParallelTaskExecutor.execute ss ctx cfg tr = .ok (merged, t1) ∧
      merged.errors.length = ctx.errors.length +
        (ss.filter (fun s => fails s && !s.critical)).length := by
  cases ss with
  | nil => exact absurd rfl hne
  | cons s rest =>
      simp only [ParallelTaskExecutor.execute]
      rw [parallel_groupSucceeded_eq fails ctx cfg.operator (s :: rest)
        hdef, hok, if_pos rfl]
      refine ⟨_, _, rfl, ?_⟩
      rw [show ParallelTaskExecutor.mergeContexts ctx _ =
        ((((s :: rest).map (fun s => TaskExecutor.execute s
            { ctx with currentStepId := some s.step_id })).filterMap
          (fun r => match r with
            | .ok c => some c
            | .error _ => none)).foldl (mergeStepContext ctx) ctx)
        from rfl]
      rw [mergeContexts_errors]
      rw [List.length_append, List.length_flatten, List.map_map]
      congr 1
      have := stepContexts_errors_length fails ctx (s :: rest) hdef
      rw [show (List.length ∘
          fun c : PipelineContext => List.drop ctx.errors.length c.errors)
        = (fun c : PipelineContext =>
            (List.drop ctx.errors.length c.errors).length) from rfl]
      exact this

theorem parallel_execute_definite_fail (fails : PipelineStep → Bool)
    (ss : List PipelineStep) (hne : ss ≠ [])
    (hdef : ∀ s ∈ ss, StepDefinite fails s) (ctx : PipelineContext)
    (cfg : ParallelConfig) (tr : ProgressTracker)
    (hfail : (match cfg.operator with
              | .AND => ss.all (branchOk fails)
              | .OR => ss.any (branchOk fails)) = false) :
    ParallelTaskExecutor.execute ss ctx cfg tr =
      .error (.runtimeError "Parallel group failed") := by
  cases ss with
  | nil => exact absurd rfl hne
  | cons s rest =>
      simp only [ParallelTaskExecutor.execute]
      rw [parallel_groupSucceeded_eq fails ctx cfg.operator (s :: rest)
        hdef, hfail]
      rfl

theorem foldl_setStepId_errors :
    ∀ (ss : List PipelineStep) (c : PipelineContext),
    ((ss.foldl
      (fun c s => { c with currentStepId := some s.step_id }) c)).errors =
      c.errors := by
  intro ss
  induction ss with
  | nil => intro c; rfl
  | cons s rest ih => intro c; rw [List.foldl_cons, ih]

theorem processEntry_definite_ok (config : PipelineConfig)
    (total idx : ℕ) (fails : PipelineStep → Bool) (entry : TaskStep)
    (st : RunState)
    (hdef : ∀ s ∈ entry.stepsOf, StepDefinite fails s)
    (hraise : entryRaises config.parallel_config.operator fails entry
      = false) :
    ∃ st1, Pipeline.processEntry config total idx entry st = .ok st1 ∧
      st1.ctx.errors.length = st.ctx.errors.length +
        expectedErrors config.parallel_config.operator fails entry ∧
      st1.attempted = st.attempted ++ [idx] := by
  cases entry with
  | single s =>
      have hs : StepDefinite fails s :=
        hdef s (by simp [TaskStep.stepsOf])
      simp only [entryRaises, Bool.and_eq_false_iff] at hraise
      by_cases hf : fails s = true
      · have hc : s.critical = false := by
          rcases hraise with h | h
          · exact absurd hf (by rw [h]; exact Bool.false_ne_true)
          · exact h
        obtain ⟨e, c2, heq, herr⟩ := execute_definite_fail_noncrit fails s
          hs hf hc { st.ctx with currentStepId := some s.step_id }
        cases hpe : Pipeline.processEntry config total idx
            (TaskStep.single s) st with
        | error p =>
            simp only [Pipeline.processEntry, heq] at hpe
            exact Except.noConfusion hpe
        | ok st1 =>
            have hinj := hpe
            simp only [Pipeline.processEntry, heq, Except.ok.injEq] at hinj
            refine ⟨st1, rfl, ?_, ?_⟩
            · rw [← hinj]
              show c2.errors.length = _
              rw [herr]
              simp [expectedErrors, hf, hc]
            · rw [← hinj]
      · rw [Bool.not_eq_true] at hf
        obtain ⟨c2, heq, herr⟩ := execute_definite_ok fails s hs hf
          { st.ctx with currentStepId := some s.step_id }
        cases hpe : Pipeline.processEntry config total idx
            (TaskStep.single s) st with
        | error p =>
            simp only [Pipeline.processEntry, heq] at hpe
            exact Except.noConfusion hpe
        | ok st1 =>
            have hinj := hpe
            simp only [Pipeline.processEntry, heq, Except.ok.injEq] at hinj
            refine ⟨st1, rfl, ?_, ?_⟩
            · rw [← hinj]
              show c2.errors.length = _
              rw [herr]
              simp [expectedErrors, hf]
            · rw [← hinj]
  | group ss =>
      cases ss with
      | nil =>
          cases hpe : Pipeline.processEntry config total idx
              (TaskStep.group []) st with
          | error p =>
              simp only [Pipeline.processEntry, List.foldl_nil,
                ParallelTaskExecutor.execute] at hpe
              exact Except.noConfusion hpe
          | ok st1 =>
              have hinj := hpe
              simp only [Pipeline.processEntry, List.foldl_nil,
                ParallelTaskExecutor.execute, Except.ok.injEq] at hinj
              refine ⟨st1, rfl, ?_, ?_⟩
              · rw [← hinj]
                show st.ctx.errors.length = _
                simp [expectedErrors]
              · rw [← hinj]
      | cons s rest =>
          have hok : (match config.parallel_config.operator with
              | .AND => (s :: rest).all (branchOk fails)
              | .OR => (s :: rest).any (branchOk fails)) = true := by
            simp only [entryRaises, List.isEmpty_cons, Bool.not_false,
              Bool.true_and, Bool.not_eq_false'] at hraise
            cases hop : config.parallel_config.operator <;>
              rw [hop] at hraise <;> exact hraise
          obtain ⟨merged, t1, heq, herr⟩ := parallel_execute_definite_ok
            fails (s :: rest) (by simp)
            (fun t ht => hdef t (by simpa [TaskStep.stepsOf] using ht))
            ((s :: rest).foldl
              (fun c s => { c with currentStepId := some s.step_id })
              st.ctx)
            config.parallel_config st.tracker hok
          cases hpe : Pipeline.processEntry config total idx
              (TaskStep.group (s :: rest)) st with
          | error p =>
              simp only [Pipeline.processEntry, heq] at hpe
              exact Except.noConfusion hpe
          | ok st1 =>
              have hinj := hpe
              simp only [Pipeline.processEntry, heq, Except.ok.injEq]
                at hinj
              refine ⟨st1, rfl, ?_, ?_⟩
              · rw [← hinj]
                show merged.errors.length = _
                rw [herr, foldl_setStepId_errors]
                simp only [expectedErrors, List.isEmpty_cons, if_false,
                  Bool.false_eq_true, hok, if_true]
              · rw [← hinj]

theorem processEntry_definite_raise (config : PipelineConfig)
    (total idx : ℕ) (fails : PipelineStep → Bool) (entry : TaskStep)
    (st : RunState)
    (hdef : ∀ s ∈ entry.stepsOf, StepDefinite fails s)
    (hraise : entryRaises config.parallel_config.operator fails entry
      = true) :
    ∃ e st1, Pipeline.processEntry config total idx entry st =
        .error (e, st1) ∧
      st1.ctx.errors.length + 1 = st.ctx.errors.length +
        expectedErrors config.parallel_config.operator fails entry ∧
      st1.attempted = st.attempted ++ [idx] := by
  cases entry with
  | single s =>
      have hs : StepDefinite fails s :=
        hdef s (by simp [TaskStep.stepsOf])
      simp only [entryRaises, Bool.and_eq_true] at hraise
      obtain ⟨e, cE, heq, herr⟩ := execute_definite_fail_crit fails s hs
        hraise.1 hraise.2 { st.ctx with currentStepId := some s.step_id }
      cases hpe : Pipeline.processEntry config total idx
          (TaskStep.single s) st with
      | ok st1 =>
          simp only [Pipeline.processEntry, heq] at hpe
          exact Except.noConfusion hpe
      | error p =>
          have hinj := hpe
          simp only [Pipeline.processEntry, heq, Except.error.injEq]
            at hinj
          obtain ⟨p1, p2⟩ := p
          simp only [Prod.mk.injEq] at hinj
          refine ⟨p1, p2, rfl, ?_, ?_⟩
          · rw [← hinj.2]
            show cE.errors.length + 1 = _
            rw [herr]
            simp [expectedErrors, hraise.1, hraise.2]
          · rw [← hinj.2]
  | group ss =>
      cases ss with
      | nil => simp [entryRaises] at hraise
      | cons s rest =>
          have hfail : (match config.parallel_config.operator with
              | .AND => (s :: rest).all (branchOk fails)
              | .OR => (s :: rest).any (branchOk fails)) = false := by
            simp only [entryRaises, List.isEmpty_cons, Bool.not_false,
              Bool.true_and, Bool.not_eq_true'] at hraise
            cases hop : config.parallel_config.operator <;>
              rw [hop] at hraise <;> exact hraise
          have heq := parallel_execute_definite_fail fails (s :: rest)
            (by simp)
            (fun t ht => hdef t (by simpa [TaskStep.stepsOf] using ht))
            ((s :: rest).foldl
              (fun c s => { c with currentStepId := some s.step_id })
              st.ctx)
            config.parallel_config st.tracker hfail
          cases hpe : Pipeline.processEntry config total idx
              (TaskStep.group (s :: rest)) st with
          | ok st1 =>
              simp only [Pipeline.processEntry, heq] at hpe
              exact Except.noConfusion hpe
          | error p =>
              have hinj := hpe
              simp only [Pipeline.processEntry, heq, Except.error.injEq]
                at hinj
              obtain ⟨p1, p2⟩ := p
              simp only [Prod.mk.injEq] at hinj
              refine ⟨p1, p2, rfl, ?_, ?_⟩
              · rw [← hinj.2]
                show ((s :: rest).foldl
                  (fun c s => { c with currentStepId := some s.step_id })
                  st.ctx).errors.length + 1 = _
                rw [foldl_setStepId_errors]
                simp only [expectedErrors, List.isEmpty_cons, if_false,
                  Bool.false_eq_true, hfail]
              · rw [← hinj.2]


theorem runAux_failslow (config : PipelineConfig) (total : ℕ)
    (hff : config.fail_fast = false) (fails : PipelineStep → Bool) :
    ∀ (entries : List TaskStep) (idx : ℕ) (st : RunState),
    (∀ e ∈ entries, ∀ s ∈ TaskStep.stepsOf e, StepDefinite fails s) →
    ∃ st', Pipeline.runAux config total idx entries st = .ok st' ∧
      st'.attempted = st.attempted ++ List.range' idx entries.length ∧
      st'.ctx.errors.length = st.ctx.errors.length +
        ((entries.map
          (expectedErrors config.parallel_config.operator fails)).sum) := by
  intro entries
  induction entries with
  | nil =>
      intro idx st _
      exact ⟨st, rfl, by simp, by simp⟩
  | cons e rest ih =>
      intro idx st hdef
      have hde : ∀ s ∈ TaskStep.stepsOf e, StepDefinite fails s :=
        hdef e (List.mem_cons_self e rest)
      have hdr : ∀ x ∈ rest, ∀ s ∈ TaskStep.stepsOf x,
          StepDefinite fails s :=
        fun x hx => hdef x (List.mem_cons_of_mem e hx)
      by_cases hr : entryRaises config.parallel_config.operator fails e
          = true
      · obtain ⟨e1, st1, heq, herr, hatt⟩ := processEntry_definite_raise
          config total idx fails e st hde hr
        obtain ⟨st', h1, h2, h3⟩ := ih (idx + 1)
          { st1 with
              ctx := { st1.ctx with errors := st1.ctx.errors ++ [e1] } }
          hdr
        refine ⟨st', ?_, ?_, ?_⟩
        · simp only [Pipeline.runAux, heq, hff, Bool.false_eq_true,
            if_false]
          exact h1
        · rw [h2]
          show st1.attempted ++ _ = _
          rw [hatt, List.length_cons, List.range'_succ, List.append_assoc]
          rfl
        · rw [h3]
          show (st1.ctx.errors ++ [e1]).length + _ = _
          rw [List.length_append, List.map_cons, List.sum_cons]
          simp only [List.length_singleton]
          omega
      · rw [Bool.not_eq_true] at hr
        obtain ⟨st1, heq, herr, hatt⟩ := processEntry_definite_ok config
          total idx fails e st hde hr
        obtain ⟨st', h1, h2, h3⟩ := ih (idx + 1) st1 hdr
        refine ⟨st', ?_, ?_, ?_⟩
        · simp only [Pipeline.runAux, heq]
          exact h1
        · rw [h2, hatt, List.length_cons, List.range'_succ,
            List.append_assoc]
          rfl
        · rw [h3, herr, List.map_cons, List.sum_cons]
          omega

/-- Claim C2 (amended): with `fail_fast=false` and steps whose behavior
is definite (each step either always raises or always succeeds, touching
`errors` only by raising), every plan position is attempted, `run`
returns normally, and `len(ctx.errors)` grows by: 2 per failing critical
serial position (the executor appends the exception and the pipeline
handler appends the same exception again — the claim's formula counted
such a position once), 1 per failing non-critical serial position, 1 per
failing parallel position, and 1 per failing non-critical branch inside a
successful parallel position. -/
theorem C2_fail_slow_error_accounting (steps : List TaskStep)
    (config : PipelineConfig) (context : PipelineContext)
    (fails : PipelineStep → Bool)
    (hff : config.fail_fast = false)
    (hdef : ∀ e ∈ steps, ∀ s ∈ TaskStep.stepsOf e, StepDefinite fails s) :
    ∃ st', (mkPipeline steps config).run context = .ok st' ∧
      st'.attempted = List.range steps.length ∧
      st'.ctx.errors.length = context.errors.length +
        ((steps.map
          (expectedErrors config.parallel_config.operator fails)).sum) := by
  obtain ⟨st', h1, h2, h3⟩ := runAux_failslow config steps.length hff
    fails steps 0
    { ctx := context, tracker := ProgressTracker.init steps,
      calls := [], attempted := [] } hdef
  refine ⟨st', h1, ?_, h3⟩
  rw [h2, List.range_eq_range']
  rfl

/-- The definite failure labelling for the witness plan: the two steps
named "f" and "fnc" fail, everything else succeeds. -/
def witnessFails (s : PipelineStep) : Bool :=
  s.step_id == "f" || s.step_id == "fnc"

/-- The witness plan: a succeeding serial step, a failing critical serial
step, and a parallel group with a failing non-critical branch and a
succeeding branch. -/
def c2wplan : List TaskStep :=
  [.single (SimpleStep "s" "k" (.vInt 1)),
   .single (FailingStep "f" "boom" true),
   .group [FailingStep "fnc" "soft" false,
           SimpleStep "g" "g" (.vStr "done")]]

/-- Claim C2 witness: the amended accounting applied to the witness plan
under fail-slow: all three positions are attempted and the run ends with
0 + 2 + 1 = 3 errors. -/
theorem C2_witness :
    ∃ st', (mkPipeline c2wplan failSlowCfg).run emptyCtx = .ok st' ∧
      st'.attempted = [0, 1, 2] ∧ st'.ctx.errors.length = 3 := by
  obtain ⟨st', h1, h2, h3⟩ := C2_fail_slow_error_accounting c2wplan
    failSlowCfg emptyCtx witnessFails rfl
    (by
      intro e he s hs
      simp only [c2wplan, List.mem_cons, List.not_mem_nil, or_false]
        at he
      rcases he with rfl | rfl | rfl <;>
        simp only [TaskStep.stepsOf, List.mem_cons, List.not_mem_nil,
          or_false, List.mem_singleton] at hs
      · subst hs
        rw [StepDefinite, if_neg (by simp [witnessFails, SimpleStep])]
        intro ctx
        exact ⟨_, rfl, rfl⟩
      · subst hs
        rw [StepDefinite, if_pos (by simp [witnessFails, FailingStep])]
        intro ctx
        exact ⟨_, _, rfl, rfl⟩
      · rcases hs with rfl | rfl
        · rw [StepDefinite,
            if_pos (by simp [witnessFails, FailingStep])]
          intro ctx
          exact ⟨_, _, rfl, rfl⟩
        · rw [StepDefinite,
            if_neg (by simp [witnessFails, SimpleStep])]
          intro ctx
          exact ⟨_, rfl, rfl⟩)
  refine ⟨st', h1, ?_, ?_⟩
  · rw [h2]
    rfl
  · rw [h3]
    rfl

/-- Claim C9 witness: the empty-plan identity at the default
configuration and the empty context. -/
theorem C9_witness :
    (mkPipeline [] {}).run emptyCtx =
      .ok { ctx := emptyCtx, tracker := ProgressTracker.init [],
            calls := [], attempted := [] } :=
  C9_empty_plan_identity {} emptyCtx

end TaskPipeline
